import Mathlib

/-!
Shallow embedding of the scene-query and quantified-utterance generation engine
of `image_generation/render_images.py`: the intrinsic attribute index, the
quantifier labelling, and the utterance generation performed by `parse_scene`,
together with the ad-hoc referent disambiguation of `calculate_ad_hoc_matrix`.

Python strings are modelled as `List Char`, Python dicts as insertion-ordered
association lists with overwrite-on-rebind, numpy float vectors as `List ℚ`
(the source only ever forms `m / (s + 1e-3)` for small integer `m`, `s`), and
fallible dict/list accesses as `Except` with `KeyError`/`IndexError` payloads.
-/

namespace Clevr

abbrev Str := List Char

/-- Python `" ".join(ws)`. -/
def joinSp : List Str → Str
  | [] => []
  | [w] => w
  | w :: rest => w ++ ' ' :: joinSp rest

/-- Leftmost occurrence index of `pat` in `s`. -/
def firstOcc (pat s : Str) : Option ℕ :=
  (List.range (s.length + 1)).find? (fun i => pat.isPrefixOf (s.drop i))

/-- Python `sub in s` substring test on strings. -/
def substrB (sub s : Str) : Bool := (firstOcc sub s).isSome

def pySplitAux (pat : Str) : ℕ → Str → List Str
  | 0, s => [s]
  | fuel+1, s =>
    match firstOcc pat s with
    | none => [s]
    | some i => s.take i :: pySplitAux pat fuel (s.drop (i + pat.length))

/-- Python `s.split(pat)` for a nonempty separator `pat`. -/
def pySplit (s pat : Str) : List Str := pySplitAux pat (s.length + 1) s

def pyReplaceAux (pat rep : Str) : ℕ → Str → Str
  | 0, s => s
  | fuel+1, s =>
    match firstOcc pat s with
    | none => s
    | some i => s.take i ++ rep ++ pyReplaceAux pat rep fuel (s.drop (i + pat.length))

/-- Python `s.replace(pat, rep)` (all non-overlapping occurrences, left to right). -/
def pyReplace (s pat rep : Str) : Str := pyReplaceAux pat rep (s.length + 1) s

/-- Python dict lookup on an insertion-ordered association list. -/
def dget? {α : Type} (d : List (Str × α)) (k : Str) : Option α :=
  (d.find? (fun p => decide (p.1 = k))).map Prod.snd

/-- Python dict assignment: overwrite in place if the key exists, else append. -/
def dput {α : Type} (d : List (Str × α)) (k : Str) (v : α) : List (Str × α) :=
  if d.any (fun p => decide (p.1 = k)) then
    d.map (fun p => if p.1 = k then (k, v) else p)
  else d ++ [(k, v)]

/-- A scene object: the four categorical attribute values. -/
structure Obj where
  size : Str
  color : Str
  material : Str
  shape : Str
deriving DecidableEq, Repr

instance : Inhabited Obj := ⟨⟨[], [], [], []⟩⟩

/-- A scene as consumed by `parse_scene`: objects plus the four per-direction
relationship arrays (`relationships[d][i]` = ids standing in direction `d`
to object `i`). -/
structure Scene where
  objects : List Obj
  left : List (List ℕ)
  right : List (List ℕ)
  front : List (List ℕ)
  behind : List (List ℕ)
deriving Repr

/-- `objd_list`: the object's four attribute values in source order
(`size, color, material, shape`). -/
def objdList (o : Obj) : List Str := [o.size, o.color, o.material, o.shape]

/-- `objds[i]`: the space-joined attribute string of an object. -/
def objdStr (o : Obj) : Str := joinSp (objdList o)

/-- `itertools.combinations(range n, 2)` in Python iteration order. -/
def pyCombPairs (n : ℕ) : List (ℕ × ℕ) :=
  (List.range n).flatMap (fun i =>
    ((List.range n).filter (fun j => decide (i < j))).map (fun j => (i, j)))

/-- The slice `l[i:j]`. -/
def pySlice (l : List Str) (i j : ℕ) : List Str := (l.drop i).take (j - i)

/-- The contiguous windows of `l` of length `k`, in source enumeration order
(slices `l[i:j]` over `combinations(range(len l + 1), 2)`). -/
def windowsOfLen (l : List Str) (k : ℕ) : List (List Str) :=
  (pyCombPairs (l.length + 1)).filterMap (fun p =>
    let w := pySlice l p.1 p.2
    if w.length = k then some w else none)

/-- Python `len(set l - set w)`. -/
def pySetDiffCard (l : List Str) (w : List Str) : ℕ :=
  (l.dedup.filter (fun x => decide (x ∉ w))).length

/-- Extension scan for a single attribute value (lines 188–194): substring
test of the value against each object's joined attribute string. -/
def scan1 (objs : List Obj) (attr : Str) : List ℕ :=
  (objs.enum.filter (fun p => substrB attr (objdStr p.2))).map Prod.fst

/-- Extension scan for a length-2 window (lines 220–227):
`len(set(new_objd_list) - comb2d_set) == 2`. -/
def scan2 (objs : List Obj) (w : List Str) : List ℕ :=
  (objs.enum.filter (fun p => decide (pySetDiffCard (objdList p.2) w = 2))).map Prod.fst

/-- Extension scan for a length-3 window (lines 237–243):
`len(set(new_objd_list) - comb3d_set) == 1`. -/
def scan3 (objs : List Obj) (w : List Str) : List ℕ :=
  (objs.enum.filter (fun p => decide (pySetDiffCard (objdList p.2) w = 1))).map Prod.fst

/-- Extension scan for the full 4-tuple (lines 250–256): list equality. -/
def scan4 (objs : List Obj) (w : List Str) : List ℕ :=
  (objs.enum.filter (fun p => decide (objdList p.2 = w))).map Prod.fst

/-- The mutable phase-1 state of `parse_scene`: `image_some2ids`, `image_all`
(a plain list, appended to), and `image_2ids`. -/
structure Phase1St where
  someIds : List (Str × List ℕ)
  allL : List Str
  ids : List (Str × List ℕ)
deriving Repr

/-- The per-window write events contributed by one object, in source order:
its four single attributes (substring scan), its length-2 and length-3
contiguous windows (set-difference scans), then its full tuple (list equality). -/
def writeEvents (objs : List Obj) (o : Obj) : List (Str × List ℕ) :=
  ((objdList o).map (fun a => (a, scan1 objs a)))
  ++ ((windowsOfLen (objdList o) 2).map (fun w => (joinSp w, scan2 objs w)))
  ++ ((windowsOfLen (objdList o) 3).map (fun w => (joinSp w, scan3 objs w)))
  ++ [(objdStr o, scan4 objs (objdList o))]

/-- One phase-1 write: route to `image_some2ids` or `image_all` by comparing
the scan count with the total object count, and record in `image_2ids`. -/
def phase1Step (n : ℕ) (st : Phase1St) (ev : Str × List ℕ) : Phase1St :=
  let st' := if ev.2.length ≠ n
    then { st with someIds := dput st.someIds ev.1 ev.2 }
    else { st with allL := st.allL ++ [ev.1] }
  { st' with ids := dput st'.ids ev.1 ev.2 }

/-- Phase 1 of `parse_scene` (lines 184–262): the image-level attribute index. -/
def phase1 (objs : List Obj) : Phase1St :=
  objs.foldl (fun st o => (writeEvents objs o).foldl (phase1Step objs.length) st)
    ⟨[], [], []⟩

/-- The quantifier policy the source applies wherever labels are assigned
(lines 195–199 with 306–313, given that membership in `image_some2ids` is
equivalent to extension size ≠ total): `ALL` when the extension covers the
whole scene, otherwise `EXACTLY_ONE` on singletons, otherwise `SOME`. -/
inductive Quant where
  | allQ | someQ | exactlyOne
deriving DecidableEq, Repr

def classify (k n : ℕ) : Quant :=
  if k ≠ n then (if k = 1 then .exactlyOne else .someQ) else .allQ

/-- Quantified rendering of a 1-attribute primary name (lines 306–313). -/
def primaryLabel (st : Phase1St) (c : Str) : Str :=
  match dget? st.someIds c with
  | some inds =>
      if inds.length = 1 then "Exactly one all ".toList ++ c
      else "some ".toList ++ c
  | none => "all ".toList ++ c

/-- `left_names` of an object's struct: the seeded `"some objects"` plus the
labelled 1-attribute windows (lines 271–313). -/
def leftNames (st : Phase1St) (o : Obj) : List Str :=
  "some objects".toList ::
    (windowsOfLen (objdList o) 1).map (fun w => primaryLabel st (joinSp w))

def pyIndexErr : Str := "IndexError".toList

/-- Python list indexing, raising `IndexError` when out of range. -/
def pyIndex {α : Type} (l : List α) (i : ℕ) : Except Str α :=
  if h : i < l.length then .ok l[i] else .error pyIndexErr

/-- Python dict subscript, raising `KeyError` when the key is absent. -/
def pyGetIds (d : List (Str × List ℕ)) (k : Str) : Except Str (List ℕ) :=
  match dget? d k with
  | some v => .ok v
  | none => .error ("KeyError: ".toList ++ k)

/-- The per-object node structure built by `parse_scene` (lines 267–355 and
357–627): the joined name, the primary names, the per-direction child
attribute lists, and the per-direction secondary descriptors. -/
structure OStruct where
  objd : Str
  names : List Str
  leftC : List (List Str)
  rightC : List (List Str)
  frontC : List (List Str)
  behindC : List (List Str)
  leftD : List Str
  rightD : List Str
  frontD : List Str
  behindD : List Str
deriving Repr

/-- Map a relationship id list to the related objects' attribute lists
(`objd_lists[rel_obj_ind]`, lines 339–353). -/
def childLists (objdLists : List (List Str)) (rel : List ℕ) :
    Except Str (List (List Str)) :=
  rel.mapM (fun r => pyIndex objdLists r)

/-- First struct-building pass (lines 267–355): primary names and the four
child lists. -/
def buildStructA (sc : Scene) (st : Phase1St) : Except Str (List OStruct) :=
  let objdLists := sc.objects.map objdList
  sc.objects.enum.mapM (fun p => do
    let lrel ← pyIndex sc.left p.1
    let rrel ← pyIndex sc.right p.1
    let frel ← pyIndex sc.front p.1
    let brel ← pyIndex sc.behind p.1
    let lc ← childLists objdLists lrel
    let rc ← childLists objdLists rrel
    let fc ← childLists objdLists frel
    let bc ← childLists objdLists brel
    pure { objd := objdStr p.2, names := leftNames st p.2,
           leftC := lc, rightC := rc, frontC := fc, behindC := bc,
           leftD := [], rightD := [], frontD := [], behindD := [] })

/-- Secondary descriptor classification for one direction (e.g. lines
426–434): for each child's 1-attribute window, compare the window's image-wide
extension with the direction's id set. -/
def relDescrip (ids2 : List (Str × List ℕ)) (relIds : List ℕ)
    (childs : List (List Str)) : Except Str (List Str) :=
  childs.foldlM (fun acc objd =>
    ((windowsOfLen objd 1).map joinSp).foldlM (fun acc2 c => do
      let allIds ← pyGetIds ids2 c
      let d :=
        if ((allIds.dedup.filter (fun x => decide (x ∉ relIds))).length) > 0 then
          "some ".toList ++ c
        else if allIds.length = 1 then "Exactly one all ".toList ++ c
        else "all ".toList ++ c
      pure (acc2 ++ [d])) acc) []

/-- Second struct-building pass (lines 357–627): the four per-direction
secondary descriptor lists. -/
def buildStructB (sc : Scene) (stA : List OStruct)
    (ids2 : List (Str × List ℕ)) : Except Str (List OStruct) :=
  stA.enum.mapM (fun p => do
    let lrel ← pyIndex sc.left p.1
    let rrel ← pyIndex sc.right p.1
    let frel ← pyIndex sc.front p.1
    let brel ← pyIndex sc.behind p.1
    let ld ← relDescrip ids2 lrel p.2.leftC
    let rd ← relDescrip ids2 rrel p.2.rightC
    let fd ← relDescrip ids2 frel p.2.frontC
    let bd ← relDescrip ids2 brel p.2.behindC
    pure { p.2 with leftD := ld, rightD := rd, frontD := fd, behindD := bd })

/-- The `some_flag` / `count_ids` computation for one secondary descriptor in
the `"some"`-primary branch (lines 644–666 and the three analogous blocks):
`relInv` is the inverse-direction array used for `"all"` descriptors, `relDir`
the direction array used for `"some"` descriptors. -/
def someBranchDescrip (ids2 : List (Str × List ℕ))
    (relInv relDir : List (List ℕ)) (primary : List ℕ) (descrip : Str) :
    Except Str (Bool × List ℕ) :=
  if "all".toList ∈ pySplit descrip [' '] then do
    let oudn := (pySplit descrip "all ".toList).getLastD []
    let second ← pyGetIds ids2 oudn
    second.foldlM (fun (acc : Bool × List ℕ) sid => do
      let inv ← pyIndex relInv sid
      if (primary.filter (fun x => decide (x ∉ inv))).length > 0 then
        pure (true, acc.2 ++ primary.filter (fun x => decide (x ∈ inv)))
      else pure acc) (false, [])
  else if substrB "some".toList descrip then do
    let oudn := (pySplit descrip "some ".toList).getLastD []
    let second ← pyGetIds ids2 oudn
    primary.foldlM (fun (acc : Bool × List ℕ) p => do
      let dir ← pyIndex relDir p
      if (dir.filter (fun x => decide (x ∈ second))).length = 0 then
        pure (true, acc.2)
      else pure (acc.1, acc.2 ++ [p])) (false, [])
  else pure (false, [])

/-- Rendering of one relational utterance in the `"some"`-primary branch,
including the `count_ids` override (lines 668–676): the `"Exactly one"`
prefix is attached exactly when the deduplicated `count_ids` is a singleton. -/
def emitRel (someFlag : Bool) (countIds : List ℕ) (nm prep descrip : Str) : Str :=
  let u := (if someFlag then "some ".toList else "all ".toList) ++ nm ++ prep ++ descrip
  if countIds.dedup.length = 1 then "Exactly one ".toList ++ u else u

/-- Process all secondary descriptors of one direction for a `"some"` primary. -/
def processDir (ids2 : List (Str × List ℕ)) (relInv relDir : List (List ℕ))
    (primary : List ℕ) (nm prep : Str) (descrips : List Str)
    (utts : List Str) : Except Str (List Str) :=
  descrips.foldlM (fun acc d => do
    let r ← someBranchDescrip ids2 relInv relDir primary d
    pure (acc ++ [emitRel r.1 r.2 nm prep d])) utts

/-- Process all secondary descriptors of one direction for an `"all"` primary
(lines 788–822): strip the quantifier prefixes off the descriptor, skip the
trivial self-description, emit with no spaces around the preposition. -/
def allBranchDir (nm prep : Str) (descrips : List Str) (utts : List Str) :
    List Str :=
  descrips.foldl (fun acc d0 =>
    let d := pyReplace (pyReplace (pyReplace d0 "some ".toList [])
      "Exactly one all ".toList []) "all ".toList []
    if d = nm then acc else acc ++ ["some ".toList ++ nm ++ prep ++ d]) utts

/-- Phase 3 for one object struct (lines 630–822): route each primary name to
the `"some"` branch or the `"all"` branch and accumulate utterances. -/
def processStruct (sc : Scene) (ids2 : List (Str × List ℕ)) (ost : OStruct)
    (utts : List Str) : Except Str (List Str) :=
  ost.names.foldlM (fun acc name =>
    if substrB "some".toList name then
      let nm := pyReplace name "some ".toList []
      if nm = "objects".toList then pure acc
      else do
        let pRaw ← pyGetIds ids2 nm
        let primary := pRaw.dedup
        let a1 ← processDir ids2 sc.right sc.left primary nm
          " on the right of ".toList ost.leftD acc
        let a2 ← processDir ids2 sc.left sc.right primary nm
          " on the left of ".toList ost.rightD a1
        let a3 ← processDir ids2 sc.behind sc.front primary nm
          " behind ".toList ost.frontD a2
        processDir ids2 sc.front sc.behind primary nm
          " in front of ".toList ost.behindD a3
    else
      let nm := pyReplace name "all ".toList []
      if nm = "objects".toList then pure acc
      else do
        let _ ← pyGetIds ids2 nm
        let a1 := allBranchDir nm "on the right of".toList ost.leftD acc
        let a2 := allBranchDir nm "on the left of".toList ost.rightD a1
        let a3 := allBranchDir nm "behind".toList ost.frontD a2
        pure (allBranchDir nm "on the front of".toList ost.behindD a3)) utts

/-- The outputs of `parse_scene`: the intrinsic classification (`some` keys
and the `all` list), the full index, and the utterance list. -/
structure ParseResult where
  someKeys : List Str
  allKeys : List Str
  ids : List (Str × List ℕ)
  utterances : List Str
deriving DecidableEq, Repr

/-- `parse_scene` (lines 166–836), with file/print side effects dropped:
phase 1 builds the attribute index, phases 2a/2b build the per-object structs,
phase 3 generates the relational utterances; any Python `KeyError`/`IndexError`
aborts the whole computation. -/
def parseScene (sc : Scene) : Except Str ParseResult := do
  let st := phase1 sc.objects
  let sa ← buildStructA sc st
  let sb ← buildStructB sc sa st.ids
  let utts ← sb.foldlM (fun acc ost => processStruct sc st.ids ost acc) []
  pure { someKeys := st.someIds.map Prod.fst, allKeys := st.allL,
         ids := st.ids, utterances := utts }

/-! ## `calculate_ad_hoc_matrix` (lines 1415–1505) -/

/-- Rational addition in a kernel-computable normal form (provably equal to
`+`; see `qadd_eq`). -/
def qadd (a b : ℚ) : ℚ := Rat.divInt (a.num * b.den + b.num * a.den) (a.den * b.den)

/-- Rational division in a kernel-computable normal form (provably equal to
`/`; see `qdiv_eq`). -/
def qdiv (a b : ℚ) : ℚ := Rat.divInt (a.num * b.den) (a.den * b.num)

/-- Sum of a rational list (provably the ordinary sum; see `qsum_eq`). -/
def qsum (l : List ℚ) : ℚ := l.foldr qadd 0

/-- An object as consumed by the ad-hoc disambiguator. -/
structure AdObj where
  shape : String
  size : String
  material : String
  color : String
deriving DecidableEq, Repr

/-- The order in which `calculate_ad_hoc_matrix` visits an object's values
(lines 1425–1447): shape, size, material, color. -/
def advals (o : AdObj) : List String := [o.shape, o.size, o.material, o.color]

/-- One step of the `utterance_lists` accumulation: insert a fresh indicator
row for a new value, or increment the entry at object `i`. -/
def addVal (n i : ℕ) (st : List (String × List ℚ)) (v : String) :
    List (String × List ℚ) :=
  if st.any (fun p => decide (p.1 = v)) then
    st.map (fun p => if p.1 = v then (p.1, p.2.set i (qadd (p.2.getD i 0) 1)) else p)
  else st ++ [(v, (List.range n).map (fun j => if j = i then (1 : ℚ) else 0))]

/-- The raw `utterance_lists` dict (lines 1416–1447). -/
def utteranceLists (os : List AdObj) : List (String × List ℚ) :=
  os.enum.foldl (fun st p => (advals p.2).foldl (addVal os.length p.1) st) []

def adKeys (os : List AdObj) : List String := (utteranceLists os).map Prod.fst

/-- Row normalisation and matrix assembly (lines 1450–1455): each row is
divided by its sum plus `1e-3`. -/
def fullMatrix (os : List AdObj) : List (List ℚ) :=
  (utteranceLists os).map (fun p =>
    p.2.map (fun x => qdiv x (qadd (qsum p.2) (mkRat 1 1000))))

def colOf (m : List (List ℚ)) (i : ℕ) : List ℚ := m.map (fun row => row.getD i 0)

/-- `numpy` max of a column. -/
def pyMax (l : List ℚ) : ℚ := l.foldl max (l.headD 0)

/-- The heterogeneous entries of `full_utterance_obj_pairs`: `[i, [keys...]]`
in the candidate and tie branches, `[i, key]` in the `≥ 0.9` branch. -/
inductive FullEntry where
  | listE (i : ℕ) (ks : List String)
  | strE (i : ℕ) (k : String)
deriving DecidableEq, Repr

/-- The three per-column accumulators of lines 1457–1483. -/
structure AdAcc where
  uo : List (ℕ × String)
  rep : List String
  fullP : List FullEntry
deriving Repr

/-- Per-column branch of lines 1460–1483: unique max below `0.9` yields a
candidate; a tie excludes every tied key globally; a unique max `≥ 0.9` is
recorded as an easy pairing only. -/
def adColStep (keys : List String) (m : List (List ℚ)) (acc : AdAcc) (i : ℕ) :
    AdAcc :=
  let col := colOf m i
  let mx := pyMax col
  let cnt := (col.filter (fun x => decide (x = mx))).length
  if cnt = 1 ∧ mx < mkRat 9 10 then
    let k := keys.getD (col.findIdx (fun x => decide (x = mx))) ""
    { acc with uo := acc.uo ++ [(i, k)], fullP := acc.fullP ++ [.listE i [k]] }
  else if cnt ≠ 1 then
    let tied := (keys.zip col).filterMap (fun p =>
      if p.2 = mx then some p.1 else none)
    { acc with fullP := acc.fullP ++ [.listE i tied], rep := acc.rep ++ tied }
  else if mx ≥ mkRat 9 10 then
    let k := keys.getD (col.findIdx (fun x => decide (x = mx))) ""
    { acc with fullP := acc.fullP ++ [.strE i k] }
  else acc

/-- The full column scan over all objects. -/
def adScan (os : List AdObj) : AdAcc :=
  (List.range os.length).foldl (adColStep (adKeys os) (fullMatrix os)) ⟨[], [], []⟩

/-- `utterance_count` grouping (lines 1486–1491): candidate positions grouped
by key, accumulated by append. -/
def dputApp (d : List (String × List ℕ)) (k : String) (j : ℕ) :
    List (String × List ℕ) :=
  if d.any (fun p => decide (p.1 = k)) then
    d.map (fun p => if p.1 = k then (p.1, p.2 ++ [j]) else p)
  else d ++ [(k, [j])]

def utteranceCount (uo : List (ℕ × String)) : List (String × List ℕ) :=
  uo.enum.foldl (fun d p => dputApp d p.2.2 p.1) []

/-- `updated_utterance_obj_pairs` (lines 1495–1498): keep only keys used by
exactly one candidate and not globally excluded. -/
def updatedPairs (os : List AdObj) : List (ℕ × String) :=
  let a := adScan os
  (utteranceCount a.uo).foldl (fun acc p =>
    if p.2.length = 1 ∧ p.1 ∉ a.rep then
      acc ++ [a.uo.getD (p.2.headD 0) (0, "")]
    else acc) []

/-- `calculate_ad_hoc_matrix` (lines 1415–1505): `none` models the
`(None, None, None)` no-result return. -/
def calculate_ad_hoc_matrix (os : List AdObj) :
    Option (List FullEntry × List (ℕ × String) × List (List ℚ)) :=
  let a := adScan os
  let upd := updatedPairs os
  if upd.length = 0 then none
  else some (a.fullP, upd, fullMatrix os)

/-! ### Specification-side views of the accumulation loop -/

/-- First-occurrence deduplication: the key order of a Python dict built by
repeated insertion. -/
def firstDedup (l : List String) : List String :=
  l.foldl (fun acc v => if v ∈ acc then acc else acc ++ [v]) []

/-- The `(object index, value)` events of the accumulation loop of
`calculate_ad_hoc_matrix`, starting from index `k`. -/
def adEventsFrom (k : ℕ) (os : List AdObj) : List (ℕ × String) :=
  (List.enumFrom k os).flatMap (fun p => (advals p.2).map (fun v => (p.1, v)))

def adEvents (os : List AdObj) : List (ℕ × String) := adEventsFrom 0 os

/-- The indicator-count vector of a value over an event list. -/
def vecOf (n : ℕ) (E : List (ℕ × String)) (v : String) : List ℚ :=
  (List.range n).map (fun j => (E.count (j, v) : ℚ))

/-- The characteristic dict state after processing an event list. -/
def charSt (n : ℕ) (E : List (ℕ × String)) : List (String × List ℚ) :=
  (firstDedup (E.map Prod.snd)).map (fun v => (v, vecOf n E v))

/-! ## Concrete fixtures and accessors -/

def mkObj (s c m sh : String) : Obj := ⟨s.toList, c.toList, m.toList, sh.toList⟩

/-- Utterances of a `parse_scene` outcome (empty on error). -/
def uttsOf (e : Except Str ParseResult) : List Str :=
  match e with
  | .ok r => r.utterances
  | .error _ => []

/-- Index of a `parse_scene` outcome (empty on error). -/
def idsOf (e : Except Str ParseResult) : List (Str × List ℕ) :=
  match e with
  | .ok r => r.ids
  | .error _ => []

/-- The filtered candidate set of an ad-hoc outcome (empty on `None`). -/
def candsOf (o : Option (List FullEntry × List (ℕ × String) × List (List ℚ))) :
    List (ℕ × String) :=
  match o with
  | some r => r.2.1
  | none => []

/-- The full pair list of an ad-hoc outcome (empty on `None`). -/
def fullOf (o : Option (List FullEntry × List (ℕ × String) × List (List ℚ))) :
    List FullEntry :=
  match o with
  | some r => r.1
  | none => []

/-- A well-formed 2-object scene in which `"small"` and `"large"` each describe
exactly one object. -/
def sceneTwo : Scene :=
  { objects := [mkObj "small" "red" "rubber" "cube", mkObj "large" "red" "rubber" "cube"],
    left := [[], []], right := [[], []], front := [[], []], behind := [[], []] }

/-- Testable-property scenario 2: the three objects with object 2 left of both
others (`left[2] = [0,1]`) and the consistent inverse relations. -/
def sceneScenario2 : Scene :=
  { objects := [mkObj "small" "red" "rubber" "cube", mkObj "large" "red" "rubber" "cube",
                mkObj "small" "blue" "metal" "sphere"],
    left := [[], [], [0, 1]], right := [[2], [2], []],
    front := [[], [], []], behind := [[], [], []] }

/-- A 4-object scene (two identical pairs on a line) in which every
1-attribute description has extension of size 2. -/
def scenePairs : Scene :=
  { objects := [mkObj "small" "red" "rubber" "cube", mkObj "small" "red" "rubber" "cube",
                mkObj "large" "blue" "metal" "sphere", mkObj "large" "blue" "metal" "sphere"],
    left := [[], [0, 2], [0], [0, 1, 2]],
    right := [[1, 2, 3], [3], [1, 3], []],
    front := [[], [], [], []], behind := [[], [], [], []] }

/-- Two objects whose attribute values collide only through substring
containment (`"small"` occurs inside `"smallish"`). -/
def substrObjs : List Obj :=
  [mkObj "small" "red" "rubber" "cube", mkObj "smallish" "green" "metal" "sphere"]

/-- Two objects with pairwise-distinct attribute values containing spaces, so
that two different windows render to the same text `"a b c"`. -/
def spaceObjs : List Obj :=
  [mkObj "a" "b c" "x" "y", mkObj "a b" "c" "u" "v"]

/-- Two identical objects: every window is image-wide. -/
def twinObjs : List Obj :=
  [mkObj "small" "red" "rubber" "cube", mkObj "small" "red" "rubber" "cube"]

/-- Four ad-hoc objects of which exactly the first is blue and the rest red. -/
def adOneBlue : List AdObj :=
  [⟨"cube", "small", "rubber", "blue"⟩, ⟨"cube", "small", "rubber", "red"⟩,
   ⟨"cube", "large", "rubber", "red"⟩, ⟨"cube", "large", "metal", "red"⟩]

/-- The same four objects with a second blue swapped in for object 1. -/
def adTwoBlue : List AdObj :=
  [⟨"cube", "small", "rubber", "blue"⟩, ⟨"cube", "small", "rubber", "blue"⟩,
   ⟨"cube", "large", "rubber", "red"⟩, ⟨"cube", "large", "metal", "red"⟩]

/-- The first-occurrence key list of the event stream. -/
def adKeysC (os : List AdObj) : List String :=
  firstDedup ((adEvents os).map Prod.snd)

/-- The normalised score of value `v` at object column `i`. -/
def scoreOf (os : List AdObj) (v : String) (i : ℕ) : ℚ :=
  qdiv ((adEvents os).count (i, v) : ℚ)
    (qadd (qsum (vecOf os.length (adEvents os) v)) (mkRat 1 1000))

/-- The per-column data of the scan. -/
def colAt (os : List AdObj) (i : ℕ) : List ℚ := colOf (fullMatrix os) i

def mxAt (os : List AdObj) (i : ℕ) : ℚ := pyMax (colAt os i)

def cntAt (os : List AdObj) (i : ℕ) : ℕ :=
  ((colAt os i).filter (fun x => decide (x = mxAt os i))).length

def tiedAt (os : List AdObj) (i : ℕ) : List String :=
  ((adKeys os).zip (colAt os i)).filterMap
    (fun p => if p.2 = mxAt os i then some p.1 else none)

def argKeyAt (os : List AdObj) (i : ℕ) : String :=
  (adKeys os).getD ((colAt os i).findIdx (fun x => decide (x = mxAt os i))) ""

/-- The per-column contribution to `utterance_obj_pairs`. -/
def uoContrib (os : List AdObj) (i : ℕ) : List (ℕ × String) :=
  if cntAt os i = 1 ∧ mxAt os i < mkRat 9 10 then [(i, argKeyAt os i)] else []

/-- The per-column contribution to `repeat_obj_pairs`. -/
def repContrib (os : List AdObj) (i : ℕ) : List String :=
  if cntAt os i = 1 ∧ mxAt os i < mkRat 9 10 then []
  else if cntAt os i ≠ 1 then tiedAt os i else []

/-- The group-by characteristic state of the `utterance_count` fold. -/
def groupSt (P : List (ℕ × (ℕ × String))) : List (String × List ℕ) :=
  (firstDedup (P.map (fun q => q.2.2))).map
    (fun k => (k, (P.filter (fun q => decide (q.2.2 = k))).map Prod.fst))

/-- A value is disqualified by the claim's hypothesis: it ties for the column
maximum on some object, or it is the unique best value for more than one
object. -/
def TiesOrMulti (os : List AdObj) (v : String) : Prop :=
  (∃ i ∈ List.range os.length, cntAt os i ≠ 1 ∧ v ∈ tiedAt os i) ∨
  (∃ a ∈ List.range os.length, ∃ b ∈ List.range os.length,
    a ≠ b ∧ cntAt os a = 1 ∧ cntAt os b = 1 ∧
    argKeyAt os a = v ∧ argKeyAt os b = v)

instance (os : List AdObj) (v : String) : Decidable (TiesOrMulti os v) := by
  unfold TiesOrMulti
  infer_instance

/-- A 4-object scene in which `"small"` and `"blue"` tie for object 0's
column maximum while the candidate set is non-empty. -/
def adTieScene : List AdObj :=
  [⟨"cube", "small", "rubber", "blue"⟩, ⟨"cube", "large", "rubber", "red"⟩,
   ⟨"cube", "large", "metal", "red"⟩, ⟨"cube", "large", "metal", "red"⟩]

/-- All attribute values of the scene are free of space characters (so that
distinct windows never render to the same description text). -/
abbrev NoSpace (objs : List Obj) : Prop :=
  ∀ o ∈ objs, ∀ v ∈ objdList o, ' ' ∉ v

/-- The flattened write-event stream of phase 1. -/
def p1Events (objs : List Obj) : List (Str × List ℕ) :=
  objs.flatMap (writeEvents objs)

/-- The scan the source applies to a window, selected by its length. -/
def scanOfWindow (objs : List Obj) (w : List Str) : List ℕ :=
  if w.length = 1 then scan1 objs (joinSp w)
  else if w.length = 2 then scan2 objs w
  else if w.length = 3 then scan3 objs w
  else scan4 objs w

/-! ## Theorems -/

set_option maxRecDepth 100000

theorem qadd_eq (a b : ℚ) : qadd a b = a + b := by
  conv_rhs => rw [← Rat.num_divInt_den a, ← Rat.num_divInt_den b]
  rw [Rat.divInt_add_divInt _ _
    (Int.natCast_ne_zero.mpr a.den_ne_zero) (Int.natCast_ne_zero.mpr b.den_ne_zero)]
  rfl

theorem qdiv_eq (a b : ℚ) : qdiv a b = a / b := by
  rw [div_eq_mul_inv, Rat.inv_def']
  conv_rhs => rw [← Rat.num_divInt_den a]
  rw [Rat.divInt_mul_divInt']
  rfl

theorem qsum_eq (l : List ℚ) : qsum l = l.sum := by
  induction l with
  | nil => rfl
  | cons a t ih => simp [qsum, List.foldr, qadd_eq] at ih ⊢; rw [ih]

/-- **C1**: on the well-formed 2-object scene in which the single-attribute
description `"small"` is true of exactly one object, `parse_scene` does not
terminate normally: the primary name `"Exactly one all small"` reaches the
`"all"` branch, where stripping only `"all "` leaves the non-key
`"Exactly one small"`, and the `image_2ids` subscript raises `KeyError`. -/
theorem parseScene_sceneTwo_keyerror :
    parseScene sceneTwo = Except.error ("KeyError: Exactly one small".toList) := by
  rfl

/-- **C4**: on the concrete scenario-2 scene, `parse_scene` raises `KeyError`
(object 1 is the only `"large"` object, so its primary name
`"Exactly one all large"` hits the same missing-key path) instead of producing
any utterance set at all. -/
theorem parseScene_scenario2_keyerror :
    parseScene sceneScenario2 = Except.error ("KeyError: Exactly one large".toList) := by
  rfl

/-- **C5 counterexample**: in `scenePairs`, the primary description `"red"` is
SOME-classified with extension `[0, 1]` of size 2, yet the generated utterance
`"Exactly one some red on the right of some large"` carries the
`"Exactly one"` prefix — refuting “prefixed iff the primary extension has size
exactly 1”. -/
theorem exactlyOne_prefix_size_two_cex :
    dget? (phase1 scenePairs.objects).someIds "red".toList = some [0, 1] ∧
    "Exactly one some red on the right of some large".toList ∈
      uttsOf (parseScene scenePairs) := by
  refine ⟨by decide, by decide⟩

/-- **C6 counterexample**: object 1's `size` is `"smallish"`, so `"small"`
occurs only as a substring of its joined attribute string, yet the computed
extension of the description `"small"` contains object 1 — refuting “an
attribute value occurring only as a substring never places `j` in the
extension”. -/
theorem substring_extension_cex :
    dget? (phase1 substrObjs).ids "small".toList = some [0, 1] ∧
    "small".toList ∉ objdList (substrObjs.getD 1 default) := by
  decide

/-- **C8 counterexample**: both objects carry four pairwise-distinct attribute
values, the window `["a", "b c"]` of object 0 renders to `"a b c"`, but the
stored extension of that key is `[1]` — the later window `["a b", "c"]` of
object 1 overwrote it, so the key neither contains its source object 0 nor
accumulates all generators. -/
theorem window_overwrite_cex :
    ["a".toList, "b c".toList] ∈ windowsOfLen (objdList (spaceObjs.getD 0 default)) 2 ∧
    joinSp ["a".toList, "b c".toList] = "a b c".toList ∧
    dget? (phase1 spaceObjs).ids "a b c".toList = some [1] ∧
    (∀ o ∈ spaceObjs, (objdList o).Nodup) := by
  decide

/-- **C9 counterexample**: with two identical objects every window is
image-wide and is appended once per generating object, so `"small"` occurs
twice in the `"all"` collection — refuting “no description string appears more
than once within either collection”. -/
theorem image_all_duplicate_cex :
    List.count "small".toList (phase1 twinObjs).allL = 2 := by
  decide

/-- **C2 counterexample**: in the 4-object scene with exactly one blue object
(object 0) and three red ones, the returned filtered candidate set is
`[(1, "small"), (2, "large")]` — it does not pair the blue object with
`"blue"` (its blue score is `1/(1+1e-3) ≥ 0.9`, the easy branch). -/
theorem adhoc_one_blue_cex :
    adOneBlue.map AdObj.color = ["blue", "red", "red", "red"] ∧
    (calculate_ad_hoc_matrix adOneBlue).isSome = true ∧
    candsOf (calculate_ad_hoc_matrix adOneBlue) = [(1, "small"), (2, "large")] := by
  decide

/-- **C2 amended**: the uniquely blue object is reported only in the *full*
pair list, as the easy-case entry `[0, "blue"]`, never in the filtered
candidate set; and with a second blue object swapped in, the call returns the
no-result value (every column's maximum ties), so `"blue"` is again not a
candidate for any object. -/
theorem adhoc_one_blue_amended :
    FullEntry.strE 0 "blue" ∈ fullOf (calculate_ad_hoc_matrix adOneBlue) ∧
    (∀ p ∈ candsOf (calculate_ad_hoc_matrix adOneBlue), p.2 ≠ "blue") ∧
    candsOf (calculate_ad_hoc_matrix adOneBlue) ≠ [] ∧
    calculate_ad_hoc_matrix adTwoBlue = none := by
  refine ⟨by decide, by decide, by decide, by decide⟩

/-- **C3 counterexample**: for a single-object scene (`n = 1`) a description of
extension size `k = 1` is labelled `ALL`, not `EXACTLY_ONE` — refuting
“`EXACTLY_ONE` iff `k == 1`” at `k = n = 1`. -/
theorem classify_singleton_scene_cex :
    classify 1 1 = Quant.allQ ∧ classify 1 1 ≠ Quant.exactlyOne := by
  decide

/-- **C3 amended**: for `0 < k ≤ n`, the label is `ALL` iff `k = n`,
`EXACTLY_ONE` iff `k = 1 ∧ k ≠ n` (the `ALL` case takes precedence when
`n = 1`), and `SOME` iff `1 < k < n`; the three cases are mutually exclusive
and exhaustive. -/
theorem classify_partition (k n : ℕ) (hk : 0 < k) (hkn : k ≤ n) :
    (classify k n = Quant.allQ ↔ k = n) ∧
    (classify k n = Quant.exactlyOne ↔ k = 1 ∧ k ≠ n) ∧
    (classify k n = Quant.someQ ↔ 1 < k ∧ k < n) := by
  have hite : classify k n =
      (if k = n then Quant.allQ else if k = 1 then Quant.exactlyOne else Quant.someQ) := by
    unfold classify; by_cases h1 : k = n <;> simp [h1]
  rw [hite]
  by_cases h1 : k = n <;> by_cases h2 : k = 1 <;> simp [h1, h2] <;>
    first
      | omega
      | (rw [if_neg (show ¬(1 : ℕ) = n by omega)]; simp)

/-- **C3 witness**: the amended partition instantiated at `k = 2`, `n = 3`. -/
theorem classify_partition_witness :
    (classify 2 3 = Quant.allQ ↔ 2 = 3) ∧
    (classify 2 3 = Quant.exactlyOne ↔ 2 = 1 ∧ 2 ≠ 3) ∧
    (classify 2 3 = Quant.someQ ↔ 1 < 2 ∧ 2 < 3) :=
  classify_partition 2 3 (by decide) (by decide)

/-- **C5 amended**: in the relational-utterance renderer the `"Exactly one"`
prefix is attached if and only if the deduplicated `count_ids` computed for
the secondary descriptor — the primary-extension objects found standing in the
direction relation — is a singleton; it is not governed by the primary
description's extension size. -/
theorem emitRel_exactlyOne_iff (sf : Bool) (cnt : List ℕ) (nm prep d : Str) :
    ("Exactly one ".toList.isPrefixOf (emitRel sf cnt nm prep d) = true) ↔
      cnt.dedup.length = 1 := by
  unfold emitRel
  by_cases h : cnt.dedup.length = 1
  · rw [if_pos h]
    simp only [h, iff_true]
    rw [List.isPrefixOf_iff_prefix]
    exact List.prefix_append _ _
  · rw [if_neg h]
    simp only [h, iff_false]
    cases sf <;>
      · rw [List.isPrefixOf_iff_prefix]
        rintro ⟨t, ht⟩
        simp at ht

/-- **C10**: `calculate_ad_hoc_matrix` returns the distinct no-result value
(`None`) exactly when the final filtered candidate set is empty, and any
ordinary result carries exactly that (non-empty) filtered set. -/
theorem adhoc_none_iff (os : List AdObj) :
    (calculate_ad_hoc_matrix os = none ↔ updatedPairs os = []) ∧
    (∀ fp up m, calculate_ad_hoc_matrix os = some (fp, up, m) →
      up = updatedPairs os ∧ up ≠ []) := by
  have hcalc : calculate_ad_hoc_matrix os =
      if (updatedPairs os).length = 0 then none
      else some ((adScan os).fullP, updatedPairs os, fullMatrix os) := rfl
  by_cases h : (updatedPairs os).length = 0
  · rw [hcalc, if_pos h]
    refine ⟨⟨fun _ => List.length_eq_zero.mp h, fun _ => rfl⟩, ?_⟩
    intro fp up m hc
    exact absurd hc (by simp)
  · rw [hcalc, if_neg h]
    refine ⟨⟨fun hc => absurd hc (by simp), fun hh => absurd (by simp [hh]) h⟩, ?_⟩
    intro fp up m hc
    have h2 : up = updatedPairs os :=
      (congrArg (fun t => t.2.1) (Option.some.inj hc)).symm
    refine ⟨h2, ?_⟩
    rw [h2]
    intro he
    exact h (by simp [he])

/-- Membership in an extension scan: for a valid index `j`, the scan lists `j`
iff the scan predicate holds of `(j, objs[j])`. -/
theorem mem_scan_iff {Q : ℕ × Obj → Bool} {objs : List Obj} {j : ℕ}
    (hj : j < objs.length) :
    j ∈ (objs.enum.filter Q).map Prod.fst ↔ Q (j, objs[j]) = true := by
  constructor
  · intro hmem
    rcases List.mem_map.mp hmem with ⟨p, hp, hfst⟩
    rcases List.mem_filter.mp hp with ⟨hpe, hq⟩
    obtain ⟨i, x⟩ := p
    have hij : i = j := hfst
    subst hij
    have hx : objs[i]? = some x := List.mk_mem_enum_iff_getElem?.mp hpe
    rw [List.getElem?_eq_getElem hj] at hx
    have hxx : objs[i] = x := Option.some.inj hx
    rw [hxx]
    exact hq
  · intro hq
    exact List.mem_map.mpr ⟨(j, objs[j]),
      List.mem_filter.mpr
        ⟨List.mk_mem_enum_iff_getElem?.mpr (List.getElem?_eq_getElem hj), hq⟩, rfl⟩

/-- For duplicate-free inputs, the Python set-difference cardinality test of
the window scans coincides with the structural subset test. -/
theorem pySetDiffCard_sub_iff {vals w : List Str} (hnd : vals.Nodup)
    (hw : w.Nodup) (hle : w.length ≤ vals.length) :
    pySetDiffCard vals w = vals.length - w.length ↔ ∀ v ∈ w, v ∈ vals := by
  unfold pySetDiffCard
  rw [List.dedup_eq_self.mpr hnd]
  have hfun : (fun x : Str => decide (x ∉ w)) = (fun x => !(decide (x ∈ w))) := by
    funext x; exact decide_not
  rw [hfun]
  have hsplit := List.length_eq_length_filter_add (l := vals)
    (fun x : Str => decide (x ∈ w))
  have hflen : (vals.filter (fun x : Str => decide (x ∈ w))).length ≤ vals.length :=
    List.length_filter_le _ _
  have hcard : (vals.filter (fun x : Str => decide (x ∈ w))).length
      = (vals.toFinset ∩ w.toFinset).card := by
    rw [← List.toFinset_card_of_nodup (List.Nodup.filter _ hnd)]
    congr 1
    ext x
    simp [List.mem_filter]
  have hwcard : w.toFinset.card = w.length := List.toFinset_card_of_nodup hw
  have hinterle : (vals.toFinset ∩ w.toFinset).card ≤ w.length := by
    calc (vals.toFinset ∩ w.toFinset).card ≤ w.toFinset.card :=
          Finset.card_le_card Finset.inter_subset_right
      _ = w.length := hwcard
  constructor
  · intro h
    have ha : (vals.toFinset ∩ w.toFinset).card = w.length := by omega
    have hinter : vals.toFinset ∩ w.toFinset = w.toFinset := by
      apply Finset.eq_of_subset_of_card_le Finset.inter_subset_right
      omega
    intro v hv
    have hvm : v ∈ vals.toFinset ∩ w.toFinset := by
      rw [hinter]; exact List.mem_toFinset.mpr hv
    exact List.mem_toFinset.mp (Finset.mem_inter.mp hvm).1
  · intro hsub
    have hinter : vals.toFinset ∩ w.toFinset = w.toFinset :=
      Finset.inter_eq_right.mpr
        (fun x hx => List.mem_toFinset.mpr (hsub x (List.mem_toFinset.mp hx)))
    rw [hcard, hinter, hwcard] at hsplit
    omega

/-- A member of a token list occurs contiguously inside its space-join. -/
theorem joinSp_parts {a : Str} {ws : List Str} (h : a ∈ ws) :
    ∃ t₁ t₂, joinSp ws = t₁ ++ (a ++ t₂) := by
  induction ws with
  | nil => cases h
  | cons b rest ih =>
    rcases List.mem_cons.mp h with rfl | hmem
    · cases rest with
      | nil => exact ⟨[], [], by simp [joinSp]⟩
      | cons c rs => exact ⟨[], ' ' :: joinSp (c :: rs), by simp [joinSp]⟩
    · obtain ⟨t₁, t₂, ht⟩ := ih hmem
      cases rest with
      | nil => cases hmem
      | cons c rs =>
        refine ⟨b ++ ' ' :: t₁, t₂, ?_⟩
        have hj3 : joinSp (b :: c :: rs) = b ++ ' ' :: joinSp (c :: rs) := rfl
        rw [hj3, ht]
        simp

/-- A contiguous occurrence makes the Python substring test succeed. -/
theorem substrB_of_parts {a s : Str} (t₁ t₂ : Str) (h : s = t₁ ++ (a ++ t₂)) :
    substrB a s = true := by
  have hex : ∃ i ∈ List.range (s.length + 1), a.isPrefixOf (s.drop i) = true := by
    refine ⟨t₁.length, List.mem_range.mpr ?_, ?_⟩
    · subst h; simp; omega
    · subst h
      rw [List.drop_left]
      rw [List.isPrefixOf_iff_prefix]
      exact List.prefix_append _ _
  have : ((List.range (s.length + 1)).find?
      (fun i => a.isPrefixOf (s.drop i))).isSome := List.find?_isSome.mpr hex
  simpa [substrB, firstOcc] using this

/-- **C6 amended**: membership in the computed extension is structural for
multi-attribute windows — for 2- and 3-windows it is the set-difference test,
equivalent (for duplicate-free values) to the window's values all being among
the object's; for 4-windows it is exact list equality — while 1-attribute
descriptions use substring containment against the joined attribute string,
which always includes every object carrying the value but can also admit
substring collisions (see the counterexample). -/
theorem extension_membership_amended (objs : List Obj) (j : ℕ)
    (hj : j < objs.length) (w : List Str) (a : Str) :
    ((objdList objs[j]).Nodup → w.Nodup → w.length = 2 →
      (j ∈ scan2 objs w ↔ ∀ v ∈ w, v ∈ objdList objs[j])) ∧
    ((objdList objs[j]).Nodup → w.Nodup → w.length = 3 →
      (j ∈ scan3 objs w ↔ ∀ v ∈ w, v ∈ objdList objs[j])) ∧
    (j ∈ scan4 objs w ↔ objdList objs[j] = w) ∧
    (a ∈ objdList objs[j] → j ∈ scan1 objs a) := by
  refine ⟨?_, ?_, ?_, ?_⟩
  · intro hnd hw hlen
    unfold scan2
    rw [mem_scan_iff hj, decide_eq_true_iff]
    have h4 : (objdList objs[j]).length = 4 := rfl
    have hiff := pySetDiffCard_sub_iff hnd hw (by omega)
    rw [h4, hlen] at hiff
    exact hiff
  · intro hnd hw hlen
    unfold scan3
    rw [mem_scan_iff hj, decide_eq_true_iff]
    have h4 : (objdList objs[j]).length = 4 := rfl
    have hiff := pySetDiffCard_sub_iff hnd hw (by omega)
    rw [h4, hlen] at hiff
    exact hiff
  · unfold scan4
    rw [mem_scan_iff hj, decide_eq_true_iff]
  · intro ha
    unfold scan1
    rw [mem_scan_iff hj]
    obtain ⟨t₁, t₂, ht⟩ := joinSp_parts ha
    exact substrB_of_parts t₁ t₂ ht

/-- **C6 witness**: the amended membership characterisation instantiated on
`substrObjs` at object 0, with all hypotheses discharged concretely. -/
theorem extension_membership_amended_witness :
    (0 ∈ scan2 substrObjs ["red".toList, "rubber".toList] ↔
      ∀ v ∈ ["red".toList, "rubber".toList], v ∈ objdList substrObjs[0]) ∧
    (0 ∈ scan3 substrObjs ["red".toList, "rubber".toList, "cube".toList] ↔
      ∀ v ∈ ["red".toList, "rubber".toList, "cube".toList],
        v ∈ objdList substrObjs[0]) ∧
    0 ∈ scan1 substrObjs "small".toList :=
  ⟨(extension_membership_amended substrObjs 0 (by decide)
      ["red".toList, "rubber".toList] "small".toList).1
        (by decide) (by decide) (by decide),
   (extension_membership_amended substrObjs 0 (by decide)
      ["red".toList, "rubber".toList, "cube".toList] "small".toList).2.1
        (by decide) (by decide) (by decide),
   (extension_membership_amended substrObjs 0 (by decide)
      ["red".toList, "rubber".toList] "small".toList).2.2.2 (by decide)⟩

/-! ### The dict-state characterisation of the ad-hoc accumulation loop -/

theorem mem_foldl_dedup {l acc : List String} {x : String} :
    x ∈ l.foldl (fun acc v => if v ∈ acc then acc else acc ++ [v]) acc ↔
      x ∈ acc ∨ x ∈ l := by
  induction l generalizing acc with
  | nil => simp
  | cons a t ih =>
    simp only [List.foldl_cons]
    rw [ih]
    by_cases h : a ∈ acc
    · rw [if_pos h]
      constructor
      · rintro (hx | hx)
        · exact Or.inl hx
        · exact Or.inr (List.mem_cons_of_mem _ hx)
      · rintro (hx | hx)
        · exact Or.inl hx
        · rcases List.mem_cons.mp hx with rfl | hx2
          · exact Or.inl h
          · exact Or.inr hx2
    · rw [if_neg h]
      simp [List.mem_append, List.mem_cons, or_assoc]

theorem mem_firstDedup {l : List String} {x : String} :
    x ∈ firstDedup l ↔ x ∈ l := by
  unfold firstDedup
  rw [mem_foldl_dedup]
  simp

theorem firstDedup_append_singleton (l : List String) (v : String) :
    firstDedup (l ++ [v]) =
      if v ∈ firstDedup l then firstDedup l else firstDedup l ++ [v] := by
  unfold firstDedup
  rw [List.foldl_append]
  rfl

theorem nodup_foldl_dedup (l : List String) (acc : List String)
    (hacc : acc.Nodup) :
    (l.foldl (fun acc v => if v ∈ acc then acc else acc ++ [v]) acc).Nodup := by
  induction l generalizing acc with
  | nil => exact hacc
  | cons a t ih =>
    simp only [List.foldl_cons]
    by_cases h : a ∈ acc
    · rw [if_pos h]; exact ih _ hacc
    · rw [if_neg h]
      refine ih _ ?_
      simp [List.nodup_append, hacc, h]

theorem nodup_firstDedup (l : List String) : (firstDedup l).Nodup :=
  nodup_foldl_dedup l [] List.nodup_nil

theorem utteranceLists_eq_foldE (os : List AdObj) :
    utteranceLists os =
      (adEvents os).foldl (fun st e => addVal os.length e.1 st e.2) [] := by
  suffices h : ∀ (l : List (ℕ × AdObj)) (st : List (String × List ℚ)),
      l.foldl (fun st p => (advals p.2).foldl (addVal os.length p.1) st) st =
      (l.flatMap (fun p => (advals p.2).map (fun v => (p.1, v)))).foldl
        (fun st e => addVal os.length e.1 st e.2) st by
    have h2 := h os.enum []
    unfold utteranceLists adEvents adEventsFrom
    exact h2
  intro l
  induction l with
  | nil => intro st; rfl
  | cons p rest ih =>
    intro st
    simp only [List.foldl_cons, List.flatMap_cons, List.foldl_append]
    rw [← ih, List.foldl_map]

theorem vecOf_length (n : ℕ) (E : List (ℕ × String)) (v : String) :
    (vecOf n E v).length = n := by
  simp [vecOf]

theorem vecOf_getElem (n : ℕ) (E : List (ℕ × String)) (v : String) (j : ℕ)
    (hj : j < (vecOf n E v).length) :
    (vecOf n E v)[j] = (E.count (j, v) : ℚ) := by
  simp [vecOf]

theorem vecOf_append_ne (n : ℕ) (E : List (ℕ × String)) (i : ℕ) (v k : String)
    (h : k ≠ v) : vecOf n (E ++ [(i, v)]) k = vecOf n E k := by
  unfold vecOf
  apply List.map_congr_left
  intro j _
  congr 1
  rw [List.count_append]
  have hz : List.count (j, k) [(i, v)] = 0 := by
    simp [List.count_cons, List.count_nil]
    intro _ hc
    exact absurd hc.symm h
  omega

theorem vecOf_fresh (n : ℕ) (E : List (ℕ × String)) (i : ℕ) (v : String)
    (h : v ∉ E.map Prod.snd) :
    vecOf n (E ++ [(i, v)]) v =
      (List.range n).map (fun j => if j = i then (1 : ℚ) else 0) := by
  unfold vecOf
  apply List.map_congr_left
  intro j _
  have hz : E.count (j, v) = 0 := by
    rw [List.count_eq_zero]
    intro hc
    exact h (List.mem_map.mpr ⟨(j, v), hc, rfl⟩)
  rw [List.count_append, hz]
  by_cases hij : j = i
  · subst hij
    simp [List.count_cons]
  · have : List.count (j, v) [(i, v)] = 0 := by
      simp [List.count_cons, List.count_nil]
      intro hc
      exact absurd hc.symm hij
    rw [this]
    simp [hij]

theorem vecOf_set (n : ℕ) (E : List (ℕ × String)) (i : ℕ) (v : String) :
    (vecOf n E v).set i (qadd ((vecOf n E v).getD i 0) 1) =
      vecOf n (E ++ [(i, v)]) v := by
  apply List.ext_getElem
  · simp [vecOf]
  · intro j hj1 hj2
    have hjn : j < n := by simpa [vecOf_length] using hj2
    rw [List.getElem_set]
    by_cases hij : i = j
    · subst hij
      have hin : i < n := hjn
      have hgd : (vecOf n E v).getD i 0 = (E.count (i, v) : ℚ) := by
        rw [List.getD_eq_getElem?_getD, List.getElem?_eq_getElem
          (by rw [vecOf_length]; exact hin)]
        simp [vecOf_getElem n E v i (by rw [vecOf_length]; exact hin)]
      rw [if_pos rfl, hgd, qadd_eq,
        vecOf_getElem n _ v i (by rw [vecOf_length]; exact hin)]
      rw [List.count_append]
      have h1 : List.count (i, v) [(i, v)] = 1 := by simp
      rw [h1]
      push_cast
      ring
    · rw [if_neg hij, vecOf_getElem n E v j (by rw [vecOf_length]; exact hjn),
        vecOf_getElem n _ v j (by rw [vecOf_length]; exact hjn)]
      rw [List.count_append]
      have hz : List.count (j, v) [(i, v)] = 0 := by
        simp [List.count_cons, List.count_nil]
        intro hc
        exact absurd hc.symm (fun he => hij he.symm)
      rw [hz]
      norm_num

theorem addVal_charSt (n : ℕ) (E : List (ℕ × String)) (i : ℕ) (v : String) :
    addVal n i (charSt n E) v = charSt n (E ++ [(i, v)]) := by
  have hany : ((charSt n E).any (fun p => decide (p.1 = v)) = true) ↔
      v ∈ firstDedup (E.map Prod.snd) := by
    unfold charSt
    rw [List.any_eq_true]
    constructor
    · rintro ⟨p, hp, hpv⟩
      rcases List.mem_map.mp hp with ⟨k, hk, rfl⟩
      have : k = v := of_decide_eq_true hpv
      exact this ▸ hk
    · intro hvk
      exact ⟨(v, vecOf n E v), List.mem_map.mpr ⟨v, hvk, rfl⟩, by simp⟩
  have hsnd : (E ++ [(i, v)]).map Prod.snd = E.map Prod.snd ++ [v] := by simp
  by_cases hv : v ∈ firstDedup (E.map Prod.snd)
  · unfold addVal
    rw [if_pos (hany.mpr hv)]
    unfold charSt
    rw [hsnd, firstDedup_append_singleton, if_pos hv, List.map_map]
    apply List.map_congr_left
    intro k hk
    simp only [Function.comp]
    by_cases hkv : k = v
    · subst hkv
      rw [if_pos rfl]
      exact congrArg (fun t => (k, t)) (vecOf_set n E i k)
    · rw [if_neg hkv]
      exact congrArg (fun t => (k, t)) (vecOf_append_ne n E i v k hkv).symm
  · unfold addVal
    rw [if_neg (fun hc => hv (hany.mp hc))]
    unfold charSt
    rw [hsnd, firstDedup_append_singleton, if_neg hv, List.map_append]
    congr 1
    · apply List.map_congr_left
      intro k hk
      have hkv : k ≠ v := fun he => hv (he ▸ hk)
      exact congrArg (fun t => (k, t)) (vecOf_append_ne n E i v k hkv).symm
    · simp only [List.map_cons, List.map_nil]
      have hfresh := vecOf_fresh n E i v (fun hc => hv (mem_firstDedup.mpr hc))
      rw [hfresh]

theorem foldE_eq_charSt (n : ℕ) (E : List (ℕ × String)) :
    E.foldl (fun st e => addVal n e.1 st e.2) [] = charSt n E := by
  induction E using List.reverseRecOn with
  | nil => rfl
  | append_singleton E e ih =>
    rw [List.foldl_append, List.foldl_cons, List.foldl_nil, ih]
    obtain ⟨i, v⟩ := e
    exact addVal_charSt n E i v

/-- The `utterance_lists` dict is the insertion-ordered family of
indicator-count vectors of the distinct attribute values. -/
theorem utteranceLists_eq_charSt (os : List AdObj) :
    utteranceLists os = charSt os.length (adEvents os) := by
  rw [utteranceLists_eq_foldE]
  exact foldE_eq_charSt os.length (adEvents os)

theorem count_map_pair (l : List String) (k j : ℕ) (v : String) :
    (l.map (fun v' => (k, v'))).count (j, v) =
      if j = k then l.count v else 0 := by
  induction l with
  | nil => simp
  | cons a t ih =>
    rw [List.map_cons, List.count_cons, ih, List.count_cons]
    by_cases hj : j = k
    · subst hj
      by_cases hv : v = a
      · subst hv; simp
      · simp [hv, Prod.ext_iff]
    · simp [hj, Prod.ext_iff]
      intro hk
      exact absurd hk.symm hj

theorem adEventsFrom_cons (k : ℕ) (o : AdObj) (rest : List AdObj) :
    adEventsFrom k (o :: rest) =
      (advals o).map (fun v' => (k, v')) ++ adEventsFrom (k + 1) rest := by
  unfold adEventsFrom
  rw [List.enumFrom_cons, List.flatMap_cons]

theorem adEventsFrom_index_ge (k : ℕ) (os : List AdObj) :
    ∀ e ∈ adEventsFrom k os, k ≤ e.1 := by
  induction os generalizing k with
  | nil => intro e he; simp [adEventsFrom] at he
  | cons o rest ih =>
    intro e he
    rw [adEventsFrom_cons] at he
    rcases List.mem_append.mp he with h1 | h2
    · rcases List.mem_map.mp h1 with ⟨v', _, rfl⟩
      exact le_refl _
    · have h3 := ih (k + 1) e h2
      omega

theorem count_adEventsFrom (os : List AdObj) (k j : ℕ) (v : String)
    (hj : j < os.length) :
    (adEventsFrom k os).count (k + j, v) = (advals os[j]).count v := by
  induction os generalizing k j with
  | nil => simp at hj
  | cons o rest ih =>
    rw [adEventsFrom_cons, List.count_append, count_map_pair]
    cases j with
    | zero =>
      rw [if_pos (show k + 0 = k by omega)]
      have hrest : (adEventsFrom (k + 1) rest).count (k + 0, v) = 0 := by
        rw [List.count_eq_zero]
        intro hmem
        have hge := adEventsFrom_index_ge (k + 1) rest _ hmem
        have hge2 : k + 1 ≤ k + 0 := hge
        omega
      rw [hrest]
      simp
    | succ j' =>
      rw [if_neg (show ¬(k + (j' + 1) = k) by omega)]
      have hre := ih (k + 1) j' (by simpa using hj)
      have harith : k + 1 + j' = k + (j' + 1) := by omega
      rw [harith] at hre
      rw [hre]
      simp

theorem count_adEvents (os : List AdObj) (j : ℕ) (v : String)
    (hj : j < os.length) :
    (adEvents os).count (j, v) = (advals os[j]).count v := by
  have := count_adEventsFrom os 0 j v hj
  simpa using this

/-! ### Column, maximum and branch lemmas for the ad-hoc scan -/

theorem adKeys_eq (os : List AdObj) : adKeys os = adKeysC os := by
  rw [adKeys, utteranceLists_eq_charSt]
  unfold charSt adKeysC adEvents
  rw [List.map_map]
  have hid : (Prod.fst ∘ fun v : String =>
      (v, vecOf os.length (adEventsFrom 0 os) v)) = id := rfl
  rw [hid, List.map_id]

theorem colOf_fullMatrix (os : List AdObj) (i : ℕ) (hi : i < os.length) :
    colOf (fullMatrix os) i = (adKeysC os).map (fun v => scoreOf os v i) := by
  rw [fullMatrix, utteranceLists_eq_charSt]
  unfold colOf charSt adKeysC adEvents
  rw [List.map_map, List.map_map]
  apply List.map_congr_left
  intro v _
  simp only [Function.comp]
  have hlen : (vecOf os.length (adEventsFrom 0 os) v).length = os.length :=
    vecOf_length _ _ _
  rw [List.getD_eq_getElem?_getD,
    List.getElem?_eq_getElem (by rw [List.length_map, hlen]; exact hi)]
  rw [List.getElem_map]
  rw [vecOf_getElem _ _ v i (by rw [vecOf_length]; exact hi)]
  unfold scoreOf adEvents
  simp

theorem adColStep_char (os : List AdObj) (acc : AdAcc) (i : ℕ) :
    (adColStep (adKeys os) (fullMatrix os) acc i).uo = acc.uo ++ uoContrib os i ∧
    (adColStep (adKeys os) (fullMatrix os) acc i).rep
      = acc.rep ++ repContrib os i := by
  simp only [adColStep]
  split_ifs with h1 h2 h3
  · have h1' : cntAt os i = 1 ∧ mxAt os i < mkRat 9 10 := h1
    rw [uoContrib, if_pos h1', repContrib, if_pos h1']
    exact ⟨rfl, by simp⟩
  · have h1' : ¬(cntAt os i = 1 ∧ mxAt os i < mkRat 9 10) := h1
    have h2' : cntAt os i ≠ 1 := h2
    rw [uoContrib, if_neg h1', repContrib, if_neg h1', if_pos h2']
    exact ⟨by simp, rfl⟩
  · have h1' : ¬(cntAt os i = 1 ∧ mxAt os i < mkRat 9 10) := h1
    have h2' : ¬(cntAt os i ≠ 1) := h2
    rw [uoContrib, if_neg h1', repContrib, if_neg h1', if_neg h2']
    exact ⟨by simp, by simp⟩
  · have h1' : ¬(cntAt os i = 1 ∧ mxAt os i < mkRat 9 10) := h1
    have h2' : ¬(cntAt os i ≠ 1) := h2
    rw [uoContrib, if_neg h1', repContrib, if_neg h1', if_neg h2']
    exact ⟨by simp, by simp⟩

theorem adScan_char (os : List AdObj) :
    (adScan os).uo = (List.range os.length).flatMap (uoContrib os) ∧
    (adScan os).rep = (List.range os.length).flatMap (repContrib os) := by
  suffices h : ∀ (L : List ℕ) (acc : AdAcc),
      ((L.foldl (adColStep (adKeys os) (fullMatrix os)) acc).uo
        = acc.uo ++ L.flatMap (uoContrib os)) ∧
      ((L.foldl (adColStep (adKeys os) (fullMatrix os)) acc).rep
        = acc.rep ++ L.flatMap (repContrib os)) by
    have h2 := h (List.range os.length) ⟨[], [], []⟩
    unfold adScan
    simpa using h2
  intro L
  induction L with
  | nil => intro acc; simp
  | cons i T ih =>
    intro acc
    simp only [List.foldl_cons, List.flatMap_cons]
    obtain ⟨hu, hr⟩ := ih (adColStep (adKeys os) (fullMatrix os) acc i)
    obtain ⟨hu2, hr2⟩ := adColStep_char os acc i
    rw [hu, hr, hu2, hr2]
    constructor <;> simp [List.append_assoc]

theorem dputApp_groupSt (P : List (ℕ × (ℕ × String))) (j : ℕ) (e : ℕ × String) :
    dputApp (groupSt P) e.2 j = groupSt (P ++ [(j, e)]) := by
  have hany : ((groupSt P).any (fun q => decide (q.1 = e.2)) = true) ↔
      e.2 ∈ firstDedup (P.map (fun q => q.2.2)) := by
    unfold groupSt
    rw [List.any_eq_true]
    constructor
    · rintro ⟨q, hq, hqe⟩
      rcases List.mem_map.mp hq with ⟨k, hk, rfl⟩
      have he : k = e.2 := of_decide_eq_true hqe
      exact he ▸ hk
    · intro hvk
      exact ⟨(e.2, (P.filter (fun q => decide (q.2.2 = e.2))).map Prod.fst),
        List.mem_map.mpr ⟨e.2, hvk, rfl⟩, by simp⟩
  have hsnd : (P ++ [(j, e)]).map (fun q => q.2.2)
      = P.map (fun q => q.2.2) ++ [e.2] := by simp
  have hfilter : ∀ k : String, ((P ++ [(j, e)]).filter
      (fun q => decide (q.2.2 = k))).map Prod.fst =
      (P.filter (fun q => decide (q.2.2 = k))).map Prod.fst ++
        (if e.2 = k then [j] else []) := by
    intro k
    rw [List.filter_append, List.map_append]
    congr 1
    by_cases hek : e.2 = k
    · rw [if_pos hek]
      simp [List.filter, hek]
    · rw [if_neg hek]
      simp [List.filter, hek]
  by_cases hv : e.2 ∈ firstDedup (P.map (fun q => q.2.2))
  · unfold dputApp
    rw [if_pos (hany.mpr hv)]
    unfold groupSt
    rw [hsnd, firstDedup_append_singleton, if_pos hv, List.map_map]
    apply List.map_congr_left
    intro k hk
    simp only [Function.comp]
    rw [hfilter k]
    by_cases hkv : k = e.2
    · rw [if_pos hkv, if_pos hkv.symm]
    · rw [if_neg hkv, if_neg (fun he => hkv he.symm), List.append_nil]
  · unfold dputApp
    rw [if_neg (fun hc => hv (hany.mp hc))]
    unfold groupSt
    rw [hsnd, firstDedup_append_singleton, if_neg hv, List.map_append]
    congr 1
    · apply List.map_congr_left
      intro k hk
      have hke : ¬(e.2 = k) := fun he => hv (he ▸ hk)
      rw [hfilter k, if_neg hke, List.append_nil]
    · simp only [List.map_cons, List.map_nil]
      rw [hfilter e.2, if_pos rfl]
      have hz : P.filter (fun q => decide (q.2.2 = e.2)) = [] := by
        rw [List.filter_eq_nil_iff]
        intro q hq hdq
        exact hv (mem_firstDedup.mpr
          (List.mem_map.mpr ⟨q, hq, of_decide_eq_true hdq⟩))
      rw [hz]
      rfl

theorem utteranceCount_eq_groupSt (uo : List (ℕ × String)) :
    utteranceCount uo = groupSt uo.enum := by
  unfold utteranceCount
  suffices h : ∀ P : List (ℕ × (ℕ × String)),
      P.foldl (fun d p => dputApp d p.2.2 p.1) [] = groupSt P from h uo.enum
  intro P
  induction P using List.reverseRecOn with
  | nil => rfl
  | append_singleton P q ih =>
    rw [List.foldl_append, List.foldl_cons, List.foldl_nil, ih]
    exact dputApp_groupSt P q.1 q.2

theorem le_foldl_max (l : List ℚ) (acc : ℚ) : acc ≤ l.foldl max acc := by
  induction l generalizing acc with
  | nil => exact le_refl acc
  | cons a t ih => exact le_trans (le_max_left acc a) (ih (max acc a))

theorem mem_le_foldl_max {l : List ℚ} {x : ℚ} (hx : x ∈ l) (acc : ℚ) :
    x ≤ l.foldl max acc := by
  induction l generalizing acc with
  | nil => cases hx
  | cons a t ih =>
    rcases List.mem_cons.mp hx with rfl | hx2
    · exact le_trans (le_max_right acc x) (le_foldl_max t _)
    · exact ih hx2 _

theorem foldl_max_mem (l : List ℚ) (acc : ℚ) :
    l.foldl max acc = acc ∨ l.foldl max acc ∈ l := by
  induction l generalizing acc with
  | nil => exact Or.inl rfl
  | cons a t ih =>
    rw [List.foldl_cons]
    rcases ih (max acc a) with h | h
    · rcases max_choice acc a with h2 | h2
      · exact Or.inl (h.trans h2)
      · exact Or.inr (List.mem_cons.mpr (Or.inl (h.trans h2)))
    · exact Or.inr (List.mem_cons_of_mem _ h)

theorem le_pyMax {l : List ℚ} {x : ℚ} (hx : x ∈ l) : x ≤ pyMax l :=
  mem_le_foldl_max hx _

theorem pyMax_mem {l : List ℚ} (h : l ≠ []) : pyMax l ∈ l := by
  unfold pyMax
  rcases foldl_max_mem l (l.headD 0) with h1 | h1
  · rw [h1]
    cases l with
    | nil => exact absurd rfl h
    | cons a t => exact List.mem_cons.mpr (Or.inl rfl)
  · exact h1

theorem mem_foldl_ite_append {α β : Type} (l : List α) (C : α → Prop)
    [DecidablePred C] (g : α → β) (acc : List β) (x : β) :
    x ∈ l.foldl (fun acc q => if C q then acc ++ [g q] else acc) acc ↔
      x ∈ acc ∨ ∃ q ∈ l, C q ∧ x = g q := by
  induction l generalizing acc with
  | nil => simp
  | cons a t ih =>
    simp only [List.foldl_cons]
    rw [ih]
    by_cases h : C a
    · rw [if_pos h]
      constructor
      · rintro (hx | hx)
        · rcases List.mem_append.mp hx with h1 | h1
          · exact Or.inl h1
          · exact Or.inr ⟨a, List.mem_cons_self _ _, h, List.mem_singleton.mp h1⟩
        · rcases hx with ⟨q, hq, hcq, rfl⟩
          exact Or.inr ⟨q, List.mem_cons_of_mem _ hq, hcq, rfl⟩
      · rintro (hx | ⟨q, hq, hcq, rfl⟩)
        · exact Or.inl (List.mem_append.mpr (Or.inl hx))
        · rcases List.mem_cons.mp hq with rfl | hq2
          · exact Or.inl (List.mem_append.mpr (Or.inr (List.mem_singleton.mpr rfl)))
          · exact Or.inr ⟨q, hq2, hcq, rfl⟩
    · rw [if_neg h]
      constructor
      · rintro (hx | ⟨q, hq, hcq, rfl⟩)
        · exact Or.inl hx
        · exact Or.inr ⟨q, List.mem_cons_of_mem _ hq, hcq, rfl⟩
      · rintro (hx | ⟨q, hq, hcq, rfl⟩)
        · exact Or.inl hx
        · rcases List.mem_cons.mp hq with rfl | hq2
          · exact absurd hcq h
          · exact Or.inr ⟨q, hq2, hcq, rfl⟩

theorem mem_updated_struct (os : List AdObj) {p : ℕ × String}
    (hp : p ∈ updatedPairs os) :
    ∃ k js, (k, js) ∈ utteranceCount (adScan os).uo ∧ js.length = 1 ∧
      k ∉ (adScan os).rep ∧ p = (adScan os).uo.getD (js.headD 0) (0, "") := by
  have h2 := (mem_foldl_ite_append (utteranceCount (adScan os).uo)
    (fun q => q.2.length = 1 ∧ q.1 ∉ (adScan os).rep)
    (fun q => (adScan os).uo.getD (q.2.headD 0) (0, "")) [] p).mp hp
  rcases h2 with hemp | ⟨q, hq, hcq, hpe⟩
  · exact absurd hemp (List.not_mem_nil p)
  · exact ⟨q.1, q.2, hq, hcq.1, hcq.2, hpe⟩

theorem mem_groupSt {P : List (ℕ × (ℕ × String))} {k : String} {js : List ℕ}
    (h : (k, js) ∈ groupSt P) :
    js = (P.filter (fun q => decide (q.2.2 = k))).map Prod.fst := by
  unfold groupSt at h
  rcases List.mem_map.mp h with ⟨k', _, heq⟩
  cases heq
  rfl

/-! ### Score arithmetic -/

theorem scoreOf_eq (os : List AdObj) (v : String) (i : ℕ) :
    scoreOf os v i = ((adEvents os).count (i, v) : ℚ) /
      ((vecOf os.length (adEvents os) v).sum + 1/1000) := by
  unfold scoreOf
  rw [qdiv_eq, qadd_eq, qsum_eq]
  congr 1
  rw [Rat.mkRat_eq_divInt, Rat.divInt_eq_div]
  norm_num

theorem mkRat_nine_tenths : (mkRat 9 10 : ℚ) = 9/10 := by
  rw [Rat.mkRat_eq_divInt, Rat.divInt_eq_div]
  norm_num

theorem vecOf_sum_nonneg (n : ℕ) (E : List (ℕ × String)) (v : String) :
    0 ≤ (vecOf n E v).sum := by
  apply List.sum_nonneg
  intro x hx
  rcases List.mem_map.mp hx with ⟨j, _, rfl⟩
  positivity

theorem vecOf_sum_two_le (n : ℕ) (E : List (ℕ × String)) (v : String)
    (a b : ℕ) (ha : a < n) (hb : b < n) (hab : a ≠ b) :
    (E.count (a, v) : ℚ) + (E.count (b, v) : ℚ) ≤ (vecOf n E v).sum := by
  have hsum : (vecOf n E v).sum
      = ∑ j in Finset.range n, (E.count (j, v) : ℚ) := rfl
  rw [hsum]
  have hsub : ({a, b} : Finset ℕ) ⊆ Finset.range n := by
    intro x hx
    rcases Finset.mem_insert.mp hx with rfl | hx2
    · exact Finset.mem_range.mpr ha
    · rw [Finset.mem_singleton] at hx2
      subst hx2
      exact Finset.mem_range.mpr hb
  have hpair : ∑ j in ({a, b} : Finset ℕ), (E.count (j, v) : ℚ)
      = (E.count (a, v) : ℚ) + (E.count (b, v) : ℚ) := Finset.sum_pair hab
  rw [← hpair]
  apply Finset.sum_le_sum_of_subset_of_nonneg hsub
  intro j _ _
  positivity

theorem count_le_four (os : List AdObj) (j : ℕ) (v : String)
    (hj : j < os.length) : (adEvents os).count (j, v) ≤ 4 := by
  rw [count_adEvents os j v hj]
  calc (advals os[j]).count v ≤ (advals os[j]).length := List.count_le_length _ _
    _ = 4 := rfl

theorem denom_pos (os : List AdObj) (v : String) :
    (0:ℚ) < (vecOf os.length (adEvents os) v).sum + 1/1000 := by
  have := vecOf_sum_nonneg os.length (adEvents os) v
  linarith

theorem scoreOf_pos (os : List AdObj) (v : String) (i : ℕ)
    (h : 1 ≤ (adEvents os).count (i, v)) : 0 < scoreOf os v i := by
  rw [scoreOf_eq]
  apply div_pos
  · exact_mod_cast Nat.lt_of_lt_of_le Nat.zero_lt_one h
  · exact denom_pos os v

theorem count_pos_of_score_pos (os : List AdObj) (v : String) (i : ℕ)
    (h : 0 < scoreOf os v i) : 1 ≤ (adEvents os).count (i, v) := by
  by_contra h0
  push_neg at h0
  have hz : (adEvents os).count (i, v) = 0 := by omega
  rw [scoreOf_eq, hz] at h
  norm_num at h

theorem shape_mem_keys (os : List AdObj) (i : ℕ) (hi : i < os.length) :
    os[i].shape ∈ adKeysC os := by
  unfold adKeysC
  rw [mem_firstDedup]
  apply List.mem_map.mpr
  refine ⟨(i, os[i].shape), ?_, rfl⟩
  have hc : (adEvents os).count (i, os[i].shape)
      = (advals os[i]).count os[i].shape := count_adEvents os i _ hi
  have hm : os[i].shape ∈ advals os[i] := by simp [advals]
  have hpos : 0 < (adEvents os).count (i, os[i].shape) := by
    rw [hc]
    exact List.count_pos_iff.mpr hm
  exact List.count_pos_iff.mp hpos

theorem shape_count_pos (os : List AdObj) (i : ℕ) (hi : i < os.length) :
    1 ≤ (adEvents os).count (i, os[i].shape) := by
  rw [count_adEvents os i _ hi]
  exact List.count_pos_iff.mpr (by simp [advals])

theorem mxAt_pos (os : List AdObj) (i : ℕ) (hi : i < os.length) :
    0 < mxAt os i := by
  have hv0 : os[i].shape ∈ adKeysC os := shape_mem_keys os i hi
  have hscore_mem : scoreOf os os[i].shape i ∈ colAt os i := by
    rw [colAt, colOf_fullMatrix os i hi]
    exact List.mem_map.mpr ⟨_, hv0, rfl⟩
  have hpos : 0 < scoreOf os os[i].shape i :=
    scoreOf_pos os _ i (shape_count_pos os i hi)
  exact lt_of_lt_of_le hpos (le_pyMax hscore_mem)

theorem argKeyAt_score (os : List AdObj) (i : ℕ) (hi : i < os.length) :
    scoreOf os (argKeyAt os i) i = mxAt os i := by
  have hkeys_ne : adKeysC os ≠ [] := by
    intro hc
    have := shape_mem_keys os i hi
    rw [hc] at this
    exact absurd this (List.not_mem_nil _)
  have hcol : colAt os i = (adKeysC os).map (fun v => scoreOf os v i) := by
    rw [colAt]
    exact colOf_fullMatrix os i hi
  have hne : colAt os i ≠ [] := by
    rw [hcol]
    intro hc
    exact hkeys_ne (List.map_eq_nil_iff.mp hc)
  have hmx : mxAt os i ∈ colAt os i := pyMax_mem hne
  have hex : ∃ x ∈ colAt os i, (fun x => decide (x = mxAt os i)) x = true :=
    ⟨_, hmx, by simp⟩
  have hidx : (colAt os i).findIdx (fun x => decide (x = mxAt os i))
      < (colAt os i).length := List.findIdx_lt_length_of_exists hex
  have hlenk : (colAt os i).length = (adKeysC os).length := by
    rw [hcol, List.length_map]
  have hidxk : (colAt os i).findIdx (fun x => decide (x = mxAt os i))
      < (adKeysC os).length := hlenk ▸ hidx
  have hsat := @List.findIdx_getElem _ (fun x => decide (x = mxAt os i))
    (colAt os i) hidx
  have hentry := of_decide_eq_true hsat
  have hargk : argKeyAt os i = (adKeysC os).getD ((colAt os i).findIdx
      (fun x => decide (x = mxAt os i))) "" := by
    unfold argKeyAt
    rw [adKeys_eq]
  have h2 := List.getElem_of_eq hcol hidx
  rw [List.getElem_map] at h2
  have hget2 := List.getElem?_eq_getElem hidxk
  rw [hargk, List.getD_eq_getElem?_getD, hget2, Option.getD_some, ← h2]
  exact hentry

theorem score_arith_contra (os : List AdObj) (v : String) (a b : ℕ)
    (ha : a < os.length) (hb : b < os.length) (hab : a ≠ b)
    (hgea : mkRat 9 10 ≤ scoreOf os v a) (hposb : 0 < scoreOf os v b) :
    False := by
  have hma4 : (adEvents os).count (a, v) ≤ 4 := count_le_four os a v ha
  have hmb1 : 1 ≤ (adEvents os).count (b, v) :=
    count_pos_of_score_pos os v b hposb
  have hS : ((adEvents os).count (a, v) : ℚ) + ((adEvents os).count (b, v) : ℚ)
      ≤ (vecOf os.length (adEvents os) v).sum :=
    vecOf_sum_two_le _ _ v a b ha hb hab
  have hden : (0:ℚ) < (vecOf os.length (adEvents os) v).sum + 1/1000 :=
    denom_pos os v
  rw [mkRat_nine_tenths, scoreOf_eq] at hgea
  have h1 : (9:ℚ)/10 * ((vecOf os.length (adEvents os) v).sum + 1/1000)
      ≤ ((adEvents os).count (a, v) : ℚ) := (le_div_iff₀ hden).mp hgea
  have hmbQ : (1:ℚ) ≤ ((adEvents os).count (b, v) : ℚ) := by exact_mod_cast hmb1
  have hmaQ : ((adEvents os).count (a, v) : ℚ) ≤ 4 := by exact_mod_cast hma4
  linarith

/-- **C7**: a value that ties for the column maximum on some object, or that
is the unique best value for more than one object, never appears as any
object's distinguishing value in the filtered candidate set returned by
`calculate_ad_hoc_matrix`. -/
theorem tie_exclusion (os : List AdObj) (v : String) (h : TiesOrMulti os v) :
    ∀ fp up m, calculate_ad_hoc_matrix os = some (fp, up, m) →
      ∀ p ∈ up, p.2 ≠ v := by
  intro fp up m hc p hp hpv
  have hcalc : calculate_ad_hoc_matrix os =
      if (updatedPairs os).length = 0 then none
      else some ((adScan os).fullP, updatedPairs os, fullMatrix os) := rfl
  rw [hcalc] at hc
  by_cases hemp : (updatedPairs os).length = 0
  · rw [if_pos hemp] at hc
    cases hc
  · rw [if_neg hemp] at hc
    have hup : up = updatedPairs os :=
      (congrArg (fun t => t.2.1) (Option.some.inj hc)).symm
    rw [hup] at hp
    obtain ⟨k, js, hkjs, hlen, hkrep, hpeq⟩ := mem_updated_struct os hp
    obtain ⟨j0, hj0⟩ := List.length_eq_one.mp hlen
    rw [utteranceCount_eq_groupSt] at hkjs
    have hjs_eq := mem_groupSt hkjs
    have hj0mem : j0 ∈ js := by
      rw [hj0]
      exact List.mem_singleton.mpr rfl
    rw [hjs_eq] at hj0mem
    rcases List.mem_map.mp hj0mem with ⟨q, hqf, hq1⟩
    rcases List.mem_filter.mp hqf with ⟨hqe, hqk⟩
    obtain ⟨qi, qp⟩ := q
    have hqi : qi = j0 := hq1
    subst hqi
    have hget : (adScan os).uo[qi]? = some qp :=
      List.mk_mem_enum_iff_getElem?.mp hqe
    have hpqp : p = qp := by
      rw [hpeq, hj0]
      have hhead : ([qi] : List ℕ).headD 0 = qi := rfl
      rw [hhead, List.getD_eq_getElem?_getD, hget]
      rfl
    have hqsnd : qp.2 = k := of_decide_eq_true hqk
    have hkv : k = v := by
      rw [← hqsnd, ← hpqp]
      exact hpv
    subst hkv
    rcases h with ⟨i, hi, hcnt, hvt⟩ | ⟨a, ha, b, hb, hab, hca, hcb, hka, hkb⟩
    · apply hkrep
      rw [(adScan_char os).2]
      apply List.mem_flatMap.mpr
      refine ⟨i, hi, ?_⟩
      unfold repContrib
      rw [if_neg (fun hc2 => hcnt hc2.1), if_pos hcnt]
      exact hvt
    · have haN := List.mem_range.mp ha
      have hbN := List.mem_range.mp hb
      by_cases hya : mxAt os a < mkRat 9 10
      · by_cases hyb : mxAt os b < mkRat 9 10
        · have hpa : (a, k) ∈ (adScan os).uo := by
            rw [(adScan_char os).1]
            apply List.mem_flatMap.mpr
            refine ⟨a, ha, ?_⟩
            unfold uoContrib
            rw [if_pos ⟨hca, hya⟩, hka]
            exact List.mem_singleton.mpr rfl
          have hpb : (b, k) ∈ (adScan os).uo := by
            rw [(adScan_char os).1]
            apply List.mem_flatMap.mpr
            refine ⟨b, hb, ?_⟩
            unfold uoContrib
            rw [if_pos ⟨hcb, hyb⟩, hkb]
            exact List.mem_singleton.mpr rfl
          rcases List.mem_iff_getElem.mp hpa with ⟨i1, hi1lt, hi1⟩
          rcases List.mem_iff_getElem.mp hpb with ⟨i2, hi2lt, hi2⟩
          have hne12 : i1 ≠ i2 := by
            intro he
            subst he
            rw [hi1] at hi2
            exact hab (congrArg Prod.fst hi2)
          have hmem1 : i1 ∈ js := by
            rw [hjs_eq]
            apply List.mem_map.mpr
            refine ⟨(i1, (a, k)), ?_, rfl⟩
            apply List.mem_filter.mpr
            refine ⟨List.mk_mem_enum_iff_getElem?.mpr ?_, by simp⟩
            rw [List.getElem?_eq_getElem hi1lt, hi1]
          have hmem2 : i2 ∈ js := by
            rw [hjs_eq]
            apply List.mem_map.mpr
            refine ⟨(i2, (b, k)), ?_, rfl⟩
            apply List.mem_filter.mpr
            refine ⟨List.mk_mem_enum_iff_getElem?.mpr ?_, by simp⟩
            rw [List.getElem?_eq_getElem hi2lt, hi2]
          rw [hj0] at hmem1 hmem2
          exact hne12 ((List.mem_singleton.mp hmem1).trans
            (List.mem_singleton.mp hmem2).symm)
        · push_neg at hyb
          have hsb : scoreOf os k b = mxAt os b := by
            rw [← hkb]
            exact argKeyAt_score os b hbN
          have hsa : scoreOf os k a = mxAt os a := by
            rw [← hka]
            exact argKeyAt_score os a haN
          have hposa : 0 < scoreOf os k a := by
            rw [hsa]
            exact mxAt_pos os a haN
          exact score_arith_contra os k b a hbN haN (Ne.symm hab)
            (by rw [hsb]; exact hyb) hposa
      · push_neg at hya
        have hsa : scoreOf os k a = mxAt os a := by
          rw [← hka]
          exact argKeyAt_score os a haN
        have hsb : scoreOf os k b = mxAt os b := by
          rw [← hkb]
          exact argKeyAt_score os b hbN
        have hposb : 0 < scoreOf os k b := by
          rw [hsb]
          exact mxAt_pos os b hbN
        exact score_arith_contra os k a b haN hbN hab
          (by rw [hsa]; exact hya) hposb

/-- **C7 witness**: in `adTieScene`, `"small"` ties for object 0's column
maximum, and the theorem yields that no returned candidate pairs any object
with `"small"`. -/
theorem tie_exclusion_witness :
    (updatedPairs adTieScene).filter (fun p => decide (p.2 = "small")) = [] :=
  List.filter_eq_nil_iff.mpr (fun p hp => by
    simpa using tie_exclusion adTieScene "small" (by decide)
      (adScan adTieScene).fullP (updatedPairs adTieScene) (fullMatrix adTieScene)
      (by rfl) p hp)

/-! ### Phase-1 fold characterisation -/

theorem dget_dput_self (d : List (Str × List ℕ)) (k : Str) (v : List ℕ) :
    dget? (dput d k v) k = some v := by
  unfold dput
  by_cases h : d.any (fun p => decide (p.1 = k))
  · rw [if_pos h]
    rcases List.any_eq_true.mp h with ⟨p0, hp0, hp0k⟩
    clear hp0k hp0 p0
    induction d with
    | nil => simp at h
    | cons p t ih =>
      by_cases hp : p.1 = k
      · unfold dget?
        rw [List.map_cons, if_pos hp]
        simp
      · rw [List.map_cons, if_neg hp]
        unfold dget?
        rw [List.find?_cons_of_neg _ (by simpa using hp)]
        have hany : t.any (fun p => decide (p.1 = k)) = true := by
          rcases List.any_eq_true.mp h with ⟨q, hq, hqk⟩
          rcases List.mem_cons.mp hq with rfl | hq2
          · exact absurd (of_decide_eq_true hqk) hp
          · exact List.any_eq_true.mpr ⟨q, hq2, hqk⟩
        have := ih hany
        unfold dget? at this
        exact this
  · rw [if_neg h]
    unfold dget?
    rw [List.find?_append]
    have hnone : d.find? (fun p => decide (p.1 = k)) = none := by
      rw [List.find?_eq_none]
      intro p hp hpk
      exact h (List.any_eq_true.mpr ⟨p, hp, hpk⟩)
    rw [hnone]
    simp

theorem dget_dput_other (d : List (Str × List ℕ)) (k k' : Str) (v : List ℕ)
    (h : k' ≠ k) : dget? (dput d k v) k' = dget? d k' := by
  unfold dput
  by_cases hany : d.any (fun p => decide (p.1 = k))
  · rw [if_pos hany]
    clear hany
    induction d with
    | nil => rfl
    | cons p t ih =>
      rw [List.map_cons]
      by_cases hp : p.1 = k
      · rw [if_pos hp]
        unfold dget?
        have hn1 : ¬(((k, v) : Str × List ℕ).1 = k') := by
          intro he
          exact h he.symm
        have hn2 : ¬(p.1 = k') := by
          intro he
          rw [hp] at he
          exact h he.symm
        rw [List.find?_cons_of_neg _ (by simpa using hn1),
          List.find?_cons_of_neg _ (by simpa using hn2)]
        exact ih
      · rw [if_neg hp]
        unfold dget?
        by_cases hpk : p.1 = k'
        · rw [List.find?_cons_of_pos _ (by simpa using hpk),
            List.find?_cons_of_pos _ (by simpa using hpk)]
        · rw [List.find?_cons_of_neg _ (by simpa using hpk),
            List.find?_cons_of_neg _ (by simpa using hpk)]
          exact ih
  · rw [if_neg hany]
    unfold dget?
    rw [List.find?_append]
    have hnone : ([(k, v)] : List (Str × List ℕ)).find?
        (fun p => decide (p.1 = k')) = none := by
      rw [List.find?_eq_none]
      intro p hp hpk
      rw [List.mem_singleton.mp hp] at hpk
      exact h (of_decide_eq_true hpk).symm
    rw [hnone]
    cases d.find? (fun p => decide (p.1 = k')) <;> rfl

theorem dget_foldl_dput_consistent (evs : List (Str × List ℕ))
    (hcons : ∀ e1 ∈ evs, ∀ e2 ∈ evs, e1.1 = e2.1 → e1.2 = e2.2) :
    ∀ e ∈ evs, dget? (evs.foldl (fun d ev => dput d ev.1 ev.2) []) e.1 = some e.2 := by
  induction evs using List.reverseRecOn with
  | nil => intro e he; cases he
  | append_singleton E e0 ih =>
    intro e he
    rw [List.foldl_append, List.foldl_cons, List.foldl_nil]
    have hconsE : ∀ e1 ∈ E, ∀ e2 ∈ E, e1.1 = e2.1 → e1.2 = e2.2 := by
      intro e1 h1 e2 h2
      exact hcons e1 (List.mem_append.mpr (Or.inl h1))
        e2 (List.mem_append.mpr (Or.inl h2))
    rcases List.mem_append.mp he with heE | he0
    · by_cases hk : e.1 = e0.1
      · have hv : e.2 = e0.2 := hcons e (List.mem_append.mpr (Or.inl heE))
          e0 (List.mem_append.mpr (Or.inr (List.mem_singleton.mpr rfl))) hk
        rw [hk, hv]
        exact dget_dput_self _ _ _
      · rw [dget_dput_other _ _ _ _ hk]
        exact ih hconsE e heE
    · rw [List.mem_singleton.mp he0]
      exact dget_dput_self _ _ _

/-- Keys of a `dput` result. -/
theorem dput_keys (d : List (Str × List ℕ)) (k : Str) (v : List ℕ) :
    (dput d k v).map Prod.fst =
      if d.any (fun p => decide (p.1 = k)) then d.map Prod.fst
      else d.map Prod.fst ++ [k] := by
  unfold dput
  by_cases h : d.any (fun p => decide (p.1 = k))
  · rw [if_pos h, if_pos h, List.map_map]
    apply List.map_congr_left
    intro p _
    simp only [Function.comp]
    by_cases hp : p.1 = k
    · rw [if_pos hp]
      exact hp.symm
    · rw [if_neg hp]
  · rw [if_neg h, if_neg h, List.map_append]
    rfl

theorem any_keys_iff (d : List (Str × List ℕ)) (k : Str) :
    d.any (fun p => decide (p.1 = k)) = true ↔ k ∈ d.map Prod.fst := by
  rw [List.any_eq_true]
  constructor
  · rintro ⟨p, hp, hpk⟩
    exact List.mem_map.mpr ⟨p, hp, of_decide_eq_true hpk⟩
  · intro hk
    rcases List.mem_map.mp hk with ⟨p, hp, rfl⟩
    exact ⟨p, hp, by simp⟩

theorem mem_keys_foldl_dput (E : List (Str × List ℕ))
    (init : List (Str × List ℕ)) (k : Str) :
    k ∈ (E.foldl (fun d e => dput d e.1 e.2) init).map Prod.fst ↔
      k ∈ init.map Prod.fst ∨ ∃ e ∈ E, e.1 = k := by
  induction E generalizing init with
  | nil => simp
  | cons e T ih =>
    simp only [List.foldl_cons]
    rw [ih]
    rw [dput_keys]
    by_cases h : init.any (fun p => decide (p.1 = e.1))
    · rw [if_pos h]
      constructor
      · rintro (hx | hx)
        · exact Or.inl hx
        · rcases hx with ⟨q, hq, hqk⟩
          exact Or.inr ⟨q, List.mem_cons_of_mem _ hq, hqk⟩
      · rintro (hx | ⟨q, hq, hqk⟩)
        · exact Or.inl hx
        · rcases List.mem_cons.mp hq with rfl | hq2
          · exact Or.inl (hqk ▸ (any_keys_iff init q.1).mp h)
          · exact Or.inr ⟨q, hq2, hqk⟩
    · rw [if_neg h]
      constructor
      · rintro (hx | hx)
        · rcases List.mem_append.mp hx with h1 | h1
          · exact Or.inl h1
          · exact Or.inr ⟨e, List.mem_cons_self _ _,
              (List.mem_singleton.mp h1).symm⟩
        · rcases hx with ⟨q, hq, hqk⟩
          exact Or.inr ⟨q, List.mem_cons_of_mem _ hq, hqk⟩
      · rintro (hx | ⟨q, hq, hqk⟩)
        · exact Or.inl (List.mem_append.mpr (Or.inl hx))
        · rcases List.mem_cons.mp hq with rfl | hq2
          · exact Or.inl (List.mem_append.mpr
              (Or.inr (List.mem_singleton.mpr hqk.symm)))
          · exact Or.inr ⟨q, hq2, hqk⟩

theorem keys_nodup_foldl_dput (E : List (Str × List ℕ))
    (init : List (Str × List ℕ)) (hinit : (init.map Prod.fst).Nodup) :
    ((E.foldl (fun d e => dput d e.1 e.2) init).map Prod.fst).Nodup := by
  induction E generalizing init with
  | nil => exact hinit
  | cons e T ih =>
    simp only [List.foldl_cons]
    apply ih
    rw [dput_keys]
    by_cases h : init.any (fun p => decide (p.1 = e.1))
    · rw [if_pos h]
      exact hinit
    · rw [if_neg h]
      have hne : e.1 ∉ init.map Prod.fst :=
        fun hc => h ((any_keys_iff init e.1).mpr hc)
      simp [List.nodup_append, hinit, hne]

/-- Component-wise characterisation of the phase-1 fold. -/
theorem foldl_phase1Step_char (n : ℕ) (E : List (Str × List ℕ))
    (st : Phase1St) :
    (E.foldl (phase1Step n) st).ids
      = E.foldl (fun d e => dput d e.1 e.2) st.ids ∧
    (E.foldl (phase1Step n) st).someIds
      = E.foldl (fun d e => if e.2.length ≠ n then dput d e.1 e.2 else d)
          st.someIds ∧
    (E.foldl (phase1Step n) st).allL
      = st.allL ++ (E.filter (fun e => decide (e.2.length = n))).map Prod.fst := by
  induction E generalizing st with
  | nil => simp
  | cons e T ih =>
    simp only [List.foldl_cons, List.filter_cons]
    obtain ⟨h1, h2, h3⟩ := ih (phase1Step n st e)
    have hids : (phase1Step n st e).ids = dput st.ids e.1 e.2 := by
      unfold phase1Step
      by_cases hc : e.2.length ≠ n <;> simp [hc]
    have hsome : (phase1Step n st e).someIds
        = if e.2.length ≠ n then dput st.someIds e.1 e.2 else st.someIds := by
      unfold phase1Step
      by_cases hc : e.2.length ≠ n <;> simp [hc]
    have hall : (phase1Step n st e).allL
        = if e.2.length = n then st.allL ++ [e.1] else st.allL := by
      unfold phase1Step
      by_cases hc : e.2.length = n <;> simp [hc]
    refine ⟨?_, ?_, ?_⟩
    · rw [h1, hids]
    · rw [h2, hsome]
    · rw [h3, hall]
      by_cases hc : e.2.length = n
      · rw [if_pos hc, if_pos (by simpa using hc)]
        simp
      · rw [if_neg hc, if_neg (by simpa using hc)]

theorem phase1_flat (objs : List Obj) :
    phase1 objs = (p1Events objs).foldl (phase1Step objs.length) ⟨[], [], []⟩ := by
  unfold phase1 p1Events
  suffices h : ∀ (l : List Obj) (st : Phase1St),
      l.foldl (fun st o => (writeEvents objs o).foldl (phase1Step objs.length) st) st
        = (l.flatMap (writeEvents objs)).foldl (phase1Step objs.length) st from
    h objs ⟨[], [], []⟩
  intro l
  induction l with
  | nil => intro st; rfl
  | cons o rest ih =>
    intro st
    simp only [List.foldl_cons, List.flatMap_cons, List.foldl_append]
    rw [← ih]

theorem foldl_ite_dput_eq_filter (n : ℕ) (E : List (Str × List ℕ))
    (init : List (Str × List ℕ)) :
    E.foldl (fun d e => if e.2.length ≠ n then dput d e.1 e.2 else d) init
      = (E.filter (fun e => decide (e.2.length ≠ n))).foldl
          (fun d e => dput d e.1 e.2) init := by
  induction E generalizing init with
  | nil => rfl
  | cons e T ih =>
    simp only [List.foldl_cons, List.filter_cons]
    by_cases hc : e.2.length ≠ n
    · rw [if_pos hc, if_pos (by simpa using hc)]
      simp only [List.foldl_cons]
      exact ih _
    · rw [if_neg hc, if_neg (by simpa using hc)]
      exact ih _

theorem count_space_joinSp (ws : List Str) (h : ∀ t ∈ ws, ' ' ∉ t) :
    (joinSp ws).count ' ' = ws.length - 1 := by
  induction ws with
  | nil => rfl
  | cons a rest ih =>
    cases rest with
    | nil =>
      have h0 : (joinSp [a]).count ' ' = 0 :=
        List.count_eq_zero.mpr (h a (List.mem_singleton.mpr rfl))
      simpa using h0
    | cons b rs =>
      have hj : joinSp (a :: b :: rs) = a ++ ' ' :: joinSp (b :: rs) := rfl
      have ha : a.count ' ' = 0 :=
        List.count_eq_zero.mpr (h a (List.mem_cons_self _ _))
      have hrest := ih (fun t ht => h t (List.mem_cons_of_mem _ ht))
      rw [hj, List.count_append, ha, List.count_cons_self, hrest]
      simp only [List.length_cons]
      omega

theorem append_space_inj : ∀ (a b x y : Str), ' ' ∉ a → ' ' ∉ b →
    a ++ ' ' :: x = b ++ ' ' :: y → a = b ∧ x = y := by
  intro a
  induction a with
  | nil =>
    intro b x y _ hb h
    cases b with
    | nil => simpa using h
    | cons c t =>
      simp only [List.nil_append, List.cons_append, List.cons.injEq] at h
      exfalso
      apply hb
      rw [h.1]
      exact List.mem_cons_self _ _
  | cons c t ih =>
    intro b x y ha hb h
    cases b with
    | nil =>
      simp only [List.cons_append, List.nil_append, List.cons.injEq] at h
      exfalso
      apply ha
      rw [← h.1]
      exact List.mem_cons_self _ _
    | cons d s =>
      simp only [List.cons_append, List.cons.injEq] at h
      obtain ⟨hcd, hrest⟩ := h
      have ht : ' ' ∉ t := fun hm => ha (List.mem_cons_of_mem _ hm)
      have hs : ' ' ∉ s := fun hm => hb (List.mem_cons_of_mem _ hm)
      obtain ⟨h1, h2⟩ := ih s x y ht hs hrest
      exact ⟨by rw [hcd, h1], h2⟩

theorem joinSp_inj : ∀ (w1 w2 : List Str), w1.length = w2.length →
    (∀ t ∈ w1, ' ' ∉ t) → (∀ t ∈ w2, ' ' ∉ t) →
    joinSp w1 = joinSp w2 → w1 = w2 := by
  intro w1
  induction w1 with
  | nil =>
    intro w2 hlen _ _ _
    cases w2 with
    | nil => rfl
    | cons b t => simp at hlen
  | cons a t1 ih =>
    intro w2 hlen hs1 hs2 hj
    cases w2 with
    | nil => simp at hlen
    | cons b t2 =>
      cases t1 with
      | nil =>
        cases t2 with
        | nil =>
          have hab : a = b := hj
          rw [hab]
        | cons c r2 => simp at hlen
      | cons c r1 =>
        cases t2 with
        | nil => simp at hlen
        | cons d r2 =>
          have hja : joinSp (a :: c :: r1) = a ++ ' ' :: joinSp (c :: r1) := rfl
          have hjb : joinSp (b :: d :: r2) = b ++ ' ' :: joinSp (d :: r2) := rfl
          rw [hja, hjb] at hj
          obtain ⟨hab, hrest⟩ := append_space_inj a b _ _
            (hs1 a (List.mem_cons_self _ _)) (hs2 b (List.mem_cons_self _ _)) hj
          have hlen' : (c :: r1).length = (d :: r2).length := by
            simp only [List.length_cons] at hlen ⊢
            omega
          have htail := ih (d :: r2) hlen'
            (fun t ht => hs1 t (List.mem_cons_of_mem _ ht))
            (fun t ht => hs2 t (List.mem_cons_of_mem _ ht))
            hrest
          rw [hab, htail]

theorem joinSp_inj_full {w1 w2 : List Str} (h1 : w1 ≠ []) (h2 : w2 ≠ [])
    (hs1 : ∀ t ∈ w1, ' ' ∉ t) (hs2 : ∀ t ∈ w2, ' ' ∉ t)
    (hj : joinSp w1 = joinSp w2) : w1 = w2 := by
  have hc : (joinSp w1).count ' ' = (joinSp w2).count ' ' := by rw [hj]
  rw [count_space_joinSp w1 hs1, count_space_joinSp w2 hs2] at hc
  have hlen : w1.length = w2.length := by
    have l1 : 0 < w1.length := List.length_pos.mpr h1
    have l2 : 0 < w2.length := List.length_pos.mpr h2
    omega
  exact joinSp_inj w1 w2 hlen hs1 hs2 hj

theorem mem_windowsOfLen {l : List Str} {k : ℕ} {w : List Str}
    (h : w ∈ windowsOfLen l k) :
    w.length = k ∧ ∃ i j, w = pySlice l i j := by
  unfold windowsOfLen at h
  rcases List.mem_filterMap.mp h with ⟨p, hp, heq⟩
  have heq2 : (if (pySlice l p.1 p.2).length = k then some (pySlice l p.1 p.2)
      else none) = some w := heq
  by_cases hc : (pySlice l p.1 p.2).length = k
  · rw [if_pos hc] at heq2
    have hw : pySlice l p.1 p.2 = w := Option.some.inj heq2
    rw [← hw]
    exact ⟨hc, p.1, p.2, rfl⟩
  · rw [if_neg hc] at heq2
    cases heq2

theorem pySlice_sublist (l : List Str) (i j : ℕ) :
    (pySlice l i j).Sublist l :=
  ((l.drop i).take_sublist (j - i)).trans (l.drop_sublist i)

theorem windowsOfLen_full {l w : List Str} (hl : l.length = 4)
    (h : w ∈ windowsOfLen l 4) : w = l := by
  obtain ⟨hlen, i, j, hw⟩ := mem_windowsOfLen h
  have hsub : w.Sublist l := hw ▸ pySlice_sublist l i j
  exact hsub.eq_of_length (by omega)

theorem scanOfWindow_len1 {objs : List Obj} {w : List Str} (h : w.length = 1) :
    scanOfWindow objs w = scan1 objs (joinSp w) := by
  simp [scanOfWindow, h]

theorem scanOfWindow_len2 {objs : List Obj} {w : List Str} (h : w.length = 2) :
    scanOfWindow objs w = scan2 objs w := by
  simp [scanOfWindow, h]

theorem scanOfWindow_len3 {objs : List Obj} {w : List Str} (h : w.length = 3) :
    scanOfWindow objs w = scan3 objs w := by
  simp [scanOfWindow, h]

theorem scanOfWindow_len4 {objs : List Obj} {w : List Str} (h : w.length = 4) :
    scanOfWindow objs w = scan4 objs w := by
  simp [scanOfWindow, h]

theorem mem_windowsOfLen_sublist {l : List Str} {k : ℕ} {w : List Str}
    (h : w ∈ windowsOfLen l k) : w.Sublist l := by
  obtain ⟨-, i, j, hw⟩ := mem_windowsOfLen h
  exact hw ▸ pySlice_sublist l i j

theorem writeEvents_shape {objs : List Obj} {o : Obj} {ev : Str × List ℕ}
    (h : ev ∈ writeEvents objs o) :
    ∃ w, ev = (joinSp w, scanOfWindow objs w) ∧ w ≠ [] ∧
      ∀ t ∈ w, t ∈ objdList o := by
  unfold writeEvents at h
  simp only [List.mem_append, List.mem_map, List.mem_singleton] at h
  rcases h with ((⟨a, ha, hev⟩ | ⟨w, hw, hev⟩) | ⟨w, hw, hev⟩) | hev
  · refine ⟨[a], ?_, by simp, ?_⟩
    · rw [← hev]
      rfl
    · intro t ht
      rw [List.mem_singleton.mp ht]
      exact ha
  · have hlen : w.length = 2 := (mem_windowsOfLen hw).1
    refine ⟨w, ?_, ?_, fun t ht => (mem_windowsOfLen_sublist hw).subset ht⟩
    · rw [← hev, scanOfWindow_len2 hlen]
    · intro hnil
      rw [hnil] at hlen
      cases hlen
  · have hlen : w.length = 3 := (mem_windowsOfLen hw).1
    refine ⟨w, ?_, ?_, fun t ht => (mem_windowsOfLen_sublist hw).subset ht⟩
    · rw [← hev, scanOfWindow_len3 hlen]
    · intro hnil
      rw [hnil] at hlen
      cases hlen
  · refine ⟨objdList o, ?_, by simp [objdList], fun t ht => ht⟩
    have h44 : scanOfWindow objs (objdList o) = scan4 objs (objdList o) :=
      scanOfWindow_len4 rfl
    rw [hev, h44]
    rfl

theorem p1Events_shape {objs : List Obj} {ev : Str × List ℕ}
    (h : ev ∈ p1Events objs) :
    ∃ w, ev = (joinSp w, scanOfWindow objs w) ∧ w ≠ [] ∧
      ∃ o ∈ objs, ∀ t ∈ w, t ∈ objdList o := by
  rcases List.mem_flatMap.mp h with ⟨o, ho, hev⟩
  obtain ⟨w, h1, h2, h3⟩ := writeEvents_shape hev
  exact ⟨w, h1, h2, o, ho, h3⟩

theorem p1Events_consistent {objs : List Obj} (hns : NoSpace objs) :
    ∀ e1 ∈ p1Events objs, ∀ e2 ∈ p1Events objs, e1.1 = e2.1 → e1.2 = e2.2 := by
  intro e1 h1 e2 h2 hk
  obtain ⟨w1, he1, hne1, o1, ho1, ht1⟩ := p1Events_shape h1
  obtain ⟨w2, he2, hne2, o2, ho2, ht2⟩ := p1Events_shape h2
  have hs1 : ∀ t ∈ w1, ' ' ∉ t := fun t ht => hns o1 ho1 t (ht1 t ht)
  have hs2 : ∀ t ∈ w2, ' ' ∉ t := fun t ht => hns o2 ho2 t (ht2 t ht)
  rw [he1, he2] at hk
  have hw : w1 = w2 := joinSp_inj_full hne1 hne2 hs1 hs2 hk
  rw [he1, he2, hw]

theorem phase1_ids_lookup {objs : List Obj} (hns : NoSpace objs) :
    ∀ e ∈ p1Events objs, dget? (phase1 objs).ids e.1 = some e.2 := by
  intro e he
  rw [phase1_flat,
    (foldl_phase1Step_char objs.length (p1Events objs) ⟨[], [], []⟩).1]
  exact dget_foldl_dput_consistent _ (p1Events_consistent hns) e he

theorem event_mem_writeEvents {objs : List Obj} {o : Obj} {w : List Str} {k : ℕ}
    (hk1 : 1 ≤ k) (hk4 : k ≤ 4) (hw : w ∈ windowsOfLen (objdList o) k) :
    (joinSp w, scanOfWindow objs w) ∈ writeEvents objs o := by
  have hlen : w.length = k := (mem_windowsOfLen hw).1
  have hsub : w.Sublist (objdList o) := mem_windowsOfLen_sublist hw
  unfold writeEvents
  simp only [List.mem_append, List.mem_map, List.mem_singleton]
  have hkcase : k = 1 ∨ k = 2 ∨ k = 3 ∨ k = 4 := by omega
  rcases hkcase with rfl | rfl | rfl | rfl
  · obtain ⟨a, ha⟩ := List.length_eq_one.mp hlen
    subst ha
    refine Or.inl (Or.inl (Or.inl ⟨a, hsub.subset (by simp), ?_⟩))
    rfl
  · exact Or.inl (Or.inl (Or.inr ⟨w, hw, by rw [scanOfWindow_len2 hlen]⟩))
  · exact Or.inl (Or.inr ⟨w, hw, by rw [scanOfWindow_len3 hlen]⟩)
  · have hwl : w = objdList o := windowsOfLen_full rfl hw
    refine Or.inr ?_
    have h44 : scanOfWindow objs (objdList o) = scan4 objs (objdList o) :=
      scanOfWindow_len4 rfl
    rw [hwl, h44]
    rfl

theorem self_mem_scanOfWindow {objs : List Obj} {i k : ℕ} {w : List Str}
    (hi : i < objs.length) (hnd : (objdList objs[i]).Nodup)
    (hk1 : 1 ≤ k) (hk4 : k ≤ 4) (hw : w ∈ windowsOfLen (objdList objs[i]) k) :
    i ∈ scanOfWindow objs w := by
  have hlen : w.length = k := (mem_windowsOfLen hw).1
  have hsub : w.Sublist (objdList objs[i]) := mem_windowsOfLen_sublist hw
  have h4 : (objdList objs[i]).length = 4 := rfl
  have hkcase : k = 1 ∨ k = 2 ∨ k = 3 ∨ k = 4 := by omega
  rcases hkcase with rfl | rfl | rfl | rfl
  · obtain ⟨a, ha⟩ := List.length_eq_one.mp hlen
    subst ha
    rw [scanOfWindow_len1 hlen]
    unfold scan1
    apply (mem_scan_iff hi).mpr
    have hain : a ∈ objdList objs[i] := hsub.subset (List.mem_singleton.mpr rfl)
    obtain ⟨t1, t2, hparts⟩ := joinSp_parts hain
    exact substrB_of_parts t1 t2 hparts
  · rw [scanOfWindow_len2 hlen]
    unfold scan2
    apply (mem_scan_iff hi).mpr
    apply decide_eq_true
    have hwnd : w.Nodup := List.Nodup.sublist hsub hnd
    have hcard := (pySetDiffCard_sub_iff hnd hwnd (by rw [hlen, h4]; omega)).mpr
      (fun v hv => hsub.subset hv)
    rw [hcard, hlen, h4]
  · rw [scanOfWindow_len3 hlen]
    unfold scan3
    apply (mem_scan_iff hi).mpr
    apply decide_eq_true
    have hwnd : w.Nodup := List.Nodup.sublist hsub hnd
    have hcard := (pySetDiffCard_sub_iff hnd hwnd (by rw [hlen, h4]; omega)).mpr
      (fun v hv => hsub.subset hv)
    rw [hcard, hlen, h4]
  · have hwl : w = objdList objs[i] := windowsOfLen_full h4 hw
    rw [scanOfWindow_len4 hlen]
    unfold scan4
    apply (mem_scan_iff hi).mpr
    apply decide_eq_true
    rw [hwl]

/-- **C10 witness**: the return-shape contract applied to the concrete
one-blue scene, whose candidate set is non-empty. -/
theorem adhoc_none_iff_witness :
    updatedPairs adOneBlue = updatedPairs adOneBlue ∧ updatedPairs adOneBlue ≠ [] :=
  (adhoc_none_iff adOneBlue).2 (adScan adOneBlue).fullP (updatedPairs adOneBlue)
    (fullMatrix adOneBlue) (by rfl)

/-- **C8** (amended): for a scene whose objects are free of space characters
in their attribute values and carry four pairwise-distinct values, every
window `w` of an object's attribute list (of any of the lengths 1–4 the index
generates) is stored in `image_2ids` under its rendered text with exactly the
full structural scan as extension: the lookup returns the scan of `w`, which
contains the generating object itself and is in particular non-empty.
Because the stored value is the complete scan over all objects (recomputed
identically at every write event for the same text), extensions are never
lost to key collisions under these hypotheses, even though the dictionary
write overwrites: every object satisfying the window's test is present. -/
theorem attribute_index_amended (objs : List Obj)
    (hnodup : ∀ o ∈ objs, (objdList o).Nodup) (hns : NoSpace objs)
    (i k : ℕ) (w : List Str) (hi : i < objs.length)
    (hk1 : 1 ≤ k) (hk4 : k ≤ 4) (hw : w ∈ windowsOfLen (objdList objs[i]) k) :
    dget? (phase1 objs).ids (joinSp w) = some (scanOfWindow objs w) ∧
    i ∈ scanOfWindow objs w ∧ scanOfWindow objs w ≠ [] := by
  have hmemO : objs[i] ∈ objs := List.getElem_mem hi
  have hev : (joinSp w, scanOfWindow objs w) ∈ p1Events objs :=
    List.mem_flatMap.mpr ⟨objs[i], hmemO, event_mem_writeEvents hk1 hk4 hw⟩
  have h1 := phase1_ids_lookup hns _ hev
  have h2 := self_mem_scanOfWindow hi (hnodup _ hmemO) hk1 hk4 hw
  exact ⟨h1, h2, List.ne_nil_of_mem h2⟩

/-- **C8 witness**: the amended coverage statement applied to the two-object
fixture at the window `["small", "red"]` of object 0. -/
theorem attribute_index_amended_witness :
    (∀ o ∈ substrObjs, (objdList o).Nodup) ∧ NoSpace substrObjs ∧
    (dget? (phase1 substrObjs).ids (joinSp ["small".toList, "red".toList])
        = some (scanOfWindow substrObjs ["small".toList, "red".toList]) ∧
      0 ∈ scanOfWindow substrObjs ["small".toList, "red".toList] ∧
      scanOfWindow substrObjs ["small".toList, "red".toList] ≠ []) :=
  ⟨by decide, by decide,
    attribute_index_amended substrObjs (by decide) (by decide) 0 2
      ["small".toList, "red".toList] (by decide) (by decide) (by decide)
      (by decide)⟩

/-- **C9** (amended): for a scene whose attribute values contain no space
character, the intrinsic classification output is a partition as far as the
`"some"` collection is concerned: the keys of `image_some2ids` are pairwise
distinct, and none of them occurs in the `image_all` list. (Without the
no-space hypothesis a single rendered text can stand for two windows with
different extensions and land in both collections; and `image_all` itself may
hold duplicates in any case, as the counterexample shows.) -/
theorem intrinsic_partition_amended (objs : List Obj) (hns : NoSpace objs) :
    ((phase1 objs).someIds.map Prod.fst).Nodup ∧
    ∀ s ∈ (phase1 objs).someIds.map Prod.fst, s ∉ (phase1 objs).allL := by
  have hchar := foldl_phase1Step_char objs.length (p1Events objs) ⟨[], [], []⟩
  have hsome : (phase1 objs).someIds
      = ((p1Events objs).filter
          (fun e => decide (e.2.length ≠ objs.length))).foldl
          (fun d e => dput d e.1 e.2) [] := by
    rw [phase1_flat, hchar.2.1, foldl_ite_dput_eq_filter]
  have hall : (phase1 objs).allL
      = ((p1Events objs).filter
          (fun e => decide (e.2.length = objs.length))).map Prod.fst := by
    rw [phase1_flat, hchar.2.2]
    rfl
  constructor
  · rw [hsome]
    exact keys_nodup_foldl_dput _ [] (by simp)
  · intro s hs hsall
    rw [hsome] at hs
    rcases (mem_keys_foldl_dput _ [] s).mp hs with hinit | ⟨e, he, hek⟩
    · simp at hinit
    · rw [hall] at hsall
      rcases List.mem_map.mp hsall with ⟨e', he', hek'⟩
      have heP := List.mem_filter.mp he
      have heP' := List.mem_filter.mp he'
      have hkey : e.1 = e'.1 := by rw [hek, hek']
      have hval : e.2 = e'.2 := p1Events_consistent hns e heP.1 e' heP'.1 hkey
      have hne : e.2.length ≠ objs.length := by simpa using heP.2
      have heq : e'.2.length = objs.length := by simpa using heP'.2
      rw [hval] at hne
      exact hne heq

/-- **C9 witness**: the amended partition statement applied to the concrete
two-object space-free fixture. -/
theorem intrinsic_partition_amended_witness :
    NoSpace substrObjs ∧
    (((phase1 substrObjs).someIds.map Prod.fst).Nodup ∧
      ∀ s ∈ (phase1 substrObjs).someIds.map Prod.fst,
        s ∉ (phase1 substrObjs).allL) :=
  ⟨by decide, intrinsic_partition_amended substrObjs (by decide)⟩

end Clevr
